import Mathlib

/-!
Verification development for `src/models/neural_odes.py`.

The Python module defines three `nn.Module`s:

* `Dynamics`  — the time-indexed vector field `f(t, x)`;
* `Semiflow`  — wraps `torchdiffeq.odeint` (fixed-step explicit Euler with
  `step_size = dt`) around a `Dynamics`;
* `NeuralODE` — augmentation + `Semiflow` + a shared affine readout.

The embedding below models a batch of vectors (a 2-D float tensor) as a
`List (List ℚ)` of exact rationals, and fallible tensor operations (shape
mismatches raise `RuntimeError` in torch) as `Option`-valued functions.
`tanh` and `sigmoid` are transcendental, so their pointwise maps are taken
as parameters (`tanhFn`, `sigmoidFn`); `relu` and `leakyrelu` are defined
exactly.  The `inplace=True` flags of `nn.ReLU` / `nn.LeakyReLU` in the
`activations` dictionary are modelled faithfully: `Dynamics.forward`
returns, next to the derivative, the value the state tensor holds after
the call (in-place activations overwrite it with `σ(x)`).
-/

namespace NODE

/-- Row vector of an exact-rational tensor. -/
abbrev Vec := List ℚ

/-- Batch of row vectors: a 2-D tensor. -/
abbrev Mat := List Vec

/-- Map a fallible operation over a list, failing if any element fails
(the `Option`-monad sequence map, written recursively). -/
def mapO {α β : Type} (f : α → Option β) : List α → Option (List β)
  | [] => some []
  | a :: l => (f a).bind fun b => (mapO f l).map fun bs => b :: bs

/-- Inner product of two rows; torch raises on an inner-dimension mismatch. -/
def dot (v w : Vec) : Option ℚ :=
  if v.length = w.length then some ((List.zipWith (· * ·) v w).sum) else none

/-- Entry `(i, j)` of `x.matmul(w.t())` is `⟨x_i, w_j⟩` (`w` stored as
`(out_features, in_features)`, as `nn.Linear.weight` is). -/
def matmulT (x w : Mat) : Option Mat :=
  mapO (fun r => mapO (fun wrow => dot r wrow) w) x

/-- Broadcast addition of a bias row onto every row of a batch
(strict length check, as for conformal torch shapes). -/
def addBias (m : Mat) (b : Vec) : Option Mat :=
  mapO (fun r =>
    if r.length = b.length then some (List.zipWith (· + ·) r b) else none) m

/-- Learnable affine layer, `nn.Linear`: `weight : (out_features, in_features)`. -/
structure LinearLayer where
  weight : Mat
  bias : Vec

/-- Application of `nn.Linear`: `x @ weightᵀ + bias`. -/
def linApply (L : LinearLayer) (x : Mat) : Option Mat :=
  (matmulT x L.weight).bind fun y => addBias y L.bias

/-- Strict same-shape addition of two batches (`y0 + dy` in the solver). -/
def matAdd : Mat → Mat → Option Mat
  | [], [] => some []
  | r :: a, s :: b =>
      if r.length = s.length then
        (matAdd a b).map fun c => List.zipWith (· + ·) r s :: c
      else none
  | _, _ => none

/-- Scalar multiple of a batch. -/
def matScale (c : ℚ) (m : Mat) : Mat :=
  m.map (List.map fun q => c * q)

/-- Total elementwise sum, used only where the solver already checked shapes. -/
def matAddT (a b : Mat) : Mat :=
  List.zipWith (List.zipWith (· + ·)) a b

/-- Total elementwise difference, used in the solver's linear interpolation. -/
def matSubT (a b : Mat) : Mat :=
  List.zipWith (List.zipWith (· - ·)) a b

/-- Python `int()` on a rational: truncation toward zero. -/
def pyInt (q : ℚ) : ℤ :=
  if 0 ≤ q then ⌊q⌋ else ⌈q⌉

/-- Python sequence indexing: nonnegative indices from the front, negative
indices from the back, `IndexError` (= `none`) when out of range. -/
def pyIndex {α : Type} (l : List α) (k : ℤ) : Option α :=
  if 0 ≤ k then l.get? k.toNat
  else if (-k).toNat ≤ l.length then l.get? (l.length - (-k).toNat) else none

/-- Module-level constant `MAX_NUM_STEPS = 1000` (unused by the modelled ops). -/
def MAX_NUM_STEPS : ℕ := 1000

/-- Module-level hyperparameter `T = 10`. -/
def T : ℚ := 10

/-- Module-level hyperparameter `time_steps = 15`. -/
def time_steps : ℕ := 15

/-- Module-level hyperparameter `dt = T/time_steps`. -/
def dt : ℚ := T / (time_steps : ℚ)

/-- An entry of the `activations` dictionary: the pointwise map together
with the `inplace` flag it was constructed with. -/
structure Activation where
  fn : ℚ → ℚ
  inplace : Bool

/-- Elementwise application of an activation module to a 2-D tensor. -/
def actApply (a : Activation) (x : Mat) : Mat :=
  x.map (List.map a.fn)

/-- Pointwise `nn.ReLU`. -/
def reluFn (q : ℚ) : ℚ := max q 0

/-- Pointwise `nn.LeakyReLU(negative_slope=0.25)`. -/
def leakyreluFn (q : ℚ) : ℚ := if q < 0 then q / 4 else q

/-- The `activations` dictionary.  `tanh` and `sigmoid` act through the
supplied pointwise maps; `relu` and `leakyrelu` carry `inplace := true`
exactly as in the source. -/
def activations (tanhFn sigmoidFn : ℚ → ℚ) (name : String) : Option Activation :=
  if name = "tanh" then some ⟨tanhFn, false⟩
  else if name = "relu" then some ⟨reluFn, true⟩
  else if name = "sigmoid" then some ⟨sigmoidFn, false⟩
  else if name = "leakyrelu" then some ⟨leakyreluFn, true⟩
  else none

/-- The `species` dictionary. -/
def speciesDict (name : String) : Option ℤ :=
  if name = "inside" then some (-1)
  else if name = "outside" then some 0
  else if name = "bottleneck" then some 1
  else none

/-- State of a `Dynamics` module.  The `device` argument carries no
semantic content and is dropped.  The per-step `nn.Linear` blocks are kept
as `(weight, bias)` pairs. -/
structure Dynamics where
  augment_dim : ℕ
  data_dim : ℕ
  input_dim : ℕ
  hidden_dim : ℕ
  nfe : ℕ
  non_linearity : Activation
  species : ℤ
  fc1_time : List (Mat × Vec)
  fc3_time : List (Mat × Vec)
  fc2_time : List (Mat × Vec)

/-- `Dynamics.__init__`.  An unknown `non_linearity` key raises `KeyError`
before anything else is built (`none`).  The randomly initialised weights
of the `nn.Linear` blocks are supplied by the caller as `blocks1`,
`blocks`, `blocks3` (index ↦ `(weight, bias)`); the constructor instals
`time_steps` of them in the banks selected by the species flag. -/
def Dynamics.init (data_dim hidden_dim : ℕ) (augment_dim : ℕ)
    (tanhFn sigmoidFn : ℚ → ℚ) (non_linearity : String)
    (blocks1 blocks blocks3 : ℕ → Mat × Vec) : Option Dynamics :=
  match activations tanhFn sigmoidFn non_linearity with
  | none => none
  | some σ =>
    let sp := (speciesDict "inside").getD 0
    if sp > 0 then
      some { augment_dim := augment_dim, data_dim := data_dim,
             input_dim := data_dim + augment_dim, hidden_dim := hidden_dim,
             nfe := 0, non_linearity := σ, species := sp,
             fc1_time := (List.range time_steps).map blocks1,
             fc3_time := (List.range time_steps).map blocks3,
             fc2_time := [] }
    else
      some { augment_dim := augment_dim, data_dim := data_dim,
             input_dim := data_dim + augment_dim, hidden_dim := hidden_dim,
             nfe := 0, non_linearity := σ, species := sp,
             fc1_time := [], fc3_time := [],
             fc2_time := (List.range time_steps).map blocks }

/-- Step index `k = int(t/dt)` computed by `Dynamics.forward`. -/
def stepIndex (t : ℚ) : ℤ := pyInt (t / dt)

/-- `Dynamics.forward(t, x)`.  Returns the updated module (the `nfe`
counter is incremented unconditionally, first thing) together with
`some (out, x_after)` on success — `x_after` being the value the argument
tensor holds after the call (an in-place activation in the
`w(t)σ(x(t))+b(t)` branch overwrites it with `σ(x)`) — or `none` where the
Python raises (index out of range, shape mismatch). -/
def Dynamics.forward (d : Dynamics) (t : ℚ) (x : Mat) :
    Dynamics × Option (Mat × Mat) :=
  let d' := { d with nfe := d.nfe + 1 }
  let k := stepIndex t
  if d.species < 1 then
    match pyIndex d.fc2_time k with
    | none => (d', none)
    | some (w_t, b_t) =>
      if d.species < 0 then
        let xσ := actApply d.non_linearity x
        let x' := if d.non_linearity.inplace then xσ else x
        match (matmulT xσ w_t).bind fun y => addBias y b_t with
        | none => (d', none)
        | some out => (d', some (out, x'))
      else
        match (matmulT x w_t).bind fun y => addBias y b_t with
        | none => (d', none)
        | some z => (d', some (actApply d.non_linearity z, x))
  else
    match pyIndex d.fc1_time k, pyIndex d.fc3_time k with
    | some (w1_t, b1_t), some (w2_t, b2_t) =>
      match (matmulT x w1_t).bind fun y => addBias y b1_t with
      | none => (d', none)
      | some z1 =>
        match (matmulT (actApply d.non_linearity z1) w2_t).bind
            fun y => addBias y b2_t with
        | none => (d', none)
        | some z2 => (d', some (actApply d.non_linearity z2, x))
    | _, _ => (d', none)

/-- Last-element replacement, `t_infer[-1] = t[-1]` in torchdiffeq's grid
constructor (no-op on an empty grid, where torch would raise instead). -/
def setLast (l : List ℚ) (v : ℚ) : List ℚ :=
  if l.isEmpty then [] else l.dropLast ++ [v]

/-- torchdiffeq's `_grid_constructor_from_step_size`: an arithmetic grid of
`ceil((t_end - t_start)/step + 1)` points from `t[0]`, last point snapped
to `t[-1]`. -/
def gridConstructor (step : ℚ) (t : List ℚ) : List ℚ :=
  let start := t.headD 0
  let stop := t.getLastD 0
  let niters : ℤ := ⌈(stop - start) / step + 1⌉
  setLast ((List.range niters.toNat).map fun i : ℕ => start + (i : ℚ) * step)
    stop

/-- torchdiffeq's `_linear_interp` between grid points. -/
def linInterp (t0 t1 : ℚ) (y0 y1 : Mat) (t : ℚ) : Mat :=
  if t = t0 then y0
  else if t = t1 then y1
  else matAddT y0 (matScale ((t - t0) / (t1 - t0)) (matSubT y1 y0))

/-- The solver's inner `while j < len(t) and t1 >= t[j]` loop: consume the
leading requested times that the step `[t0, t1]` has reached, emitting an
interpolated state for each; return the emitted states and the remaining
requested times. -/
def interpFill (t0 t1 : ℚ) (y0 y1 : Mat) : List ℚ → List Mat × List ℚ
  | [] => ([], [])
  | tj :: rest =>
    if t1 ≥ tj then
      let (filled, rem) := interpFill t0 t1 y0 y1 rest
      (linInterp t0 t1 y0 y1 tj :: filled, rem)
    else ([], tj :: rest)

/-- Main loop of `FixedGridODESolver.integrate` for the Euler method: one
vector-field call per grid interval (at its left endpoint), Euler update
`y1 = y0 + (t1 - t0) * f(t0, y0)` — where the name `y0` denotes the state
tensor as left by the call, in-place mutation included — then emission of
the interpolated states for the requested times reached.  Returns the
threaded `Dynamics`, the list of times the vector field was queried at,
and the emitted states (`none` where the Python raises; requested times
never reached, which the reference would leave as uninitialised memory in
its output tensor, are also mapped to `none`). -/
def odeSteps (d : Dynamics) (pairs : List (ℚ × ℚ)) (y0 : Mat) (ts : List ℚ) :
    Dynamics × List ℚ × Option (List Mat) :=
  match pairs with
  | [] => (d, [], if ts.isEmpty then some [] else none)
  | (t0, t1) :: rest =>
    let (d1, r) := d.forward t0 y0
    match r with
    | none => (d1, [t0], none)
    | some (f0, y0m) =>
      match matAdd y0m (matScale (t1 - t0) f0) with
      | none => (d1, [t0], none)
      | some y1 =>
        let (filled, rem) := interpFill t0 t1 y0m y1 ts
        let (d2, q, res) := odeSteps d1 rest y1 rem
        (d2, t0 :: q, res.map fun l => filled ++ l)

/-- `torchdiffeq.odeint(func, y0, t, method='euler', options={'step_size': dt})`:
build the grid, pin `solution[0] = y0`, and run the stepping loop over the
remaining requested times.  Also returns the queried-times list. -/
def odeintEuler (d : Dynamics) (y0 : Mat) (t : List ℚ) (step : ℚ) :
    Dynamics × List ℚ × Option (List Mat) :=
  let grid := gridConstructor step t
  let pairs := grid.zip grid.tail
  match t with
  | [] => (d, [], none)
  | _ :: trest =>
    let (d', q, res) := odeSteps d pairs y0 trest
    (d', q, res.map fun filled => y0 :: filled)

/-- Terminal state of the same Euler recursion, ignoring the requested
times: the value `y0` holds after the stepping loop. -/
def eulerFinal (d : Dynamics) (pairs : List (ℚ × ℚ)) (y0 : Mat) : Option Mat :=
  match pairs with
  | [] => some y0
  | (t0, t1) :: rest =>
    let (d1, r) := d.forward t0 y0
    match r with
    | none => none
    | some (f0, y0m) =>
      match matAdd y0m (matScale (t1 - t0) f0) with
      | none => none
      | some y1 => eulerFinal d1 rest y1

/-- Result of `Semiflow.forward`: the terminal state alone when
`eval_times` was omitted, the full per-time state sequence otherwise. -/
inductive FlowOut where
  | single (m : Mat)
  | states (l : List Mat)
deriving DecidableEq

/-- States carried by a `FlowOut`. -/
def FlowOut.toList : FlowOut → List Mat
  | .single m => [m]
  | .states l => l

/-- Second requested state of an explicit-`eval_times` result. -/
def FlowOut.second : FlowOut → Option Mat
  | .states l => l.get? 1
  | .single _ => none

/-- Terminal state of an omitted-`eval_times` result. -/
def FlowOut.term : FlowOut → Option Mat
  | .single m => some m
  | .states _ => none

/-- State of a `Semiflow` module (`device` dropped). -/
structure Semiflow where
  adjoint : Bool
  dynamics : Dynamics
  tol : ℚ

/-- The integration-time tensor: `[0, T]` when `eval_times` is omitted. -/
def integrationTime (eval_times : Option (List ℚ)) : List ℚ :=
  eval_times.getD [0, T]

/-- Augmentation step of `Semiflow.forward`: flatten to `(batch, -1)`
(identity on the 2-D batches modelled here) and concatenate `augment_dim`
zero columns when `augment_dim > 0`, otherwise pass `x` through. -/
def augmentInput (d : Dynamics) (x : Mat) : Mat :=
  if d.augment_dim > 0 then x.map fun r => r ++ List.replicate d.augment_dim 0
  else x

/-- `Semiflow.forward(x, eval_times)`: reset `nfe`, pick the integration
times, augment, integrate (`odeint_adjoint` and `odeint` run the same
forward numerics; the adjoint only changes gradient computation, out of
scope here), and return `out[1]` when `eval_times` was omitted, the whole
`out` otherwise. -/
def Semiflow.forward (s : Semiflow) (x : Mat) (eval_times : Option (List ℚ)) :
    Semiflow × Option FlowOut :=
  let d0 := { s.dynamics with nfe := 0 }
  let integration_time := integrationTime eval_times
  let x_aug := augmentInput s.dynamics x
  let (d', _, out?) :=
    if s.adjoint then odeintEuler d0 x_aug integration_time dt
    else odeintEuler d0 x_aug integration_time dt
  let s' := { s with dynamics := d' }
  match out? with
  | none => (s', none)
  | some out =>
    match eval_times with
    | none => (s', (out.get? 1).map FlowOut.single)
    | some _ => (s', some (FlowOut.states out))

/-- Evenly spaced `torch.linspace(a, b, n)` (for `n = 1` torch returns
`[a]`). -/
def linspaceQ (a b : ℚ) (n : ℕ) : List ℚ :=
  if n = 1 then [a]
  else (List.range n).map fun i : ℕ => a + (b - a) * (i : ℚ) / ((n : ℚ) - 1)

/-- `Semiflow.trajectory(x, timesteps)`: integrate on a `timesteps`-point
evenly spaced grid over `[0, T]`. -/
def Semiflow.trajectory (s : Semiflow) (x : Mat) (timesteps : ℕ) :
    Semiflow × Option FlowOut :=
  s.forward x (some (linspaceQ 0 T timesteps))

/-- State of a `NeuralODE` module (`device` dropped).  `traj` and
`proj_traj` are the attributes `self.traj` / `self.proj_traj` retained
from the most recent `forward` call (`none` before it is assigned). -/
structure NeuralODE where
  data_dim : ℕ
  hidden_dim : ℕ
  augment_dim : ℕ
  output_dim : ℕ
  tol : ℚ
  flow : Semiflow
  linear_layer : LinearLayer
  non_linearity : ℚ → ℚ
  traj : Option (List Mat)
  proj_traj : Option (List Mat)

/-- `NeuralODE.__init__`: build the `Dynamics` (`none` propagates its
`KeyError`), wrap it in a `Semiflow`, and attach the readout
`nn.Linear(input_dim, output_dim)` whose random initialisation is supplied
as `layer`.  `self.non_linearity = nn.Tanh()` acts through `tanhFn`. -/
def NeuralODE.init (data_dim hidden_dim : ℕ) (output_dim : ℕ)
    (augment_dim : ℕ) (tanhFn sigmoidFn : ℚ → ℚ) (non_linearity : String)
    (blocks1 blocks blocks3 : ℕ → Mat × Vec) (layer : LinearLayer)
    (tol : ℚ) (adjoint : Bool) : Option NeuralODE :=
  (Dynamics.init data_dim hidden_dim augment_dim tanhFn sigmoidFn
      non_linearity blocks1 blocks blocks3).map fun dynamics =>
    { data_dim := data_dim, hidden_dim := hidden_dim,
      augment_dim := augment_dim, output_dim := output_dim, tol := tol,
      flow := { adjoint := adjoint, dynamics := dynamics, tol := tol },
      linear_layer := layer, non_linearity := tanhFn,
      traj := none, proj_traj := none }

/-- Return value of `NeuralODE.forward`: `(features, pred)` when
`return_features` is set, `(pred, proj_traj)` otherwise. -/
inductive NODEOut where
  | withFeatures (features pred : Mat)
  | withTraj (pred : Mat) (proj_traj : List Mat)
deriving DecidableEq

/-- Prediction carried by a `NODEOut`. -/
def NODEOut.pred : NODEOut → Mat
  | .withFeatures _ p => p
  | .withTraj p _ => p

/-- Body of `NeuralODE.forward` with the two locals `cross_entropy` and
`fixed_projector` (hard-coded to `True` / `False` in the source) and the
content of the serialized-projector file `text.txt` — its last two pickled
entries, `none` when unreadable — as explicit parameters.  Errors
propagate as `none`; the module comes back with the threaded `Semiflow`
and the retained `traj` / `proj_traj` fields. -/
def NeuralODE.forwardFull (m : NeuralODE) (cross_entropy fixed_projector : Bool)
    (file : Option (Mat × Vec)) (x : Mat) (return_features : Bool) :
    NeuralODE × Option NODEOut :=
  let (flow1, fout) := m.flow.forward x none
  match fout with
  | some (FlowOut.single features) =>
    if fixed_projector then
      match file with
      | none => ({ m with flow := flow1 }, none)
      | some (pw, pb) =>
        match (matmulT features pw).bind fun y => addBias y pb with
        | none => ({ m with flow := flow1 }, none)
        | some pred =>
          let (flow2, tout) := flow1.trajectory x time_steps
          match tout with
          | some (FlowOut.states traj) =>
            match mapO (fun st => (matmulT st pw).bind fun y => addBias y pb) traj with
            | none => ({ m with flow := flow2, traj := some traj }, none)
            | some proj =>
              ({ m with flow := flow2, traj := some traj, proj_traj := some proj },
               some (if return_features then NODEOut.withFeatures features pred
                     else NODEOut.withTraj pred proj))
          | _ => ({ m with flow := flow2 }, none)
    else
      let (flow2, tout) := flow1.trajectory x time_steps
      match tout with
      | some (FlowOut.states traj) =>
        match linApply m.linear_layer features with
        | none => ({ m with flow := flow2, traj := some traj }, none)
        | some pred0 =>
          match mapO (linApply m.linear_layer) traj with
          | none => ({ m with flow := flow2, traj := some traj }, none)
          | some proj0 =>
            let pred := if !cross_entropy then pred0.map (List.map m.non_linearity)
                        else pred0
            let proj := if !cross_entropy then
                          proj0.map fun st => st.map (List.map m.non_linearity)
                        else proj0
            ({ m with flow := flow2, traj := some traj, proj_traj := some proj },
             some (if return_features then NODEOut.withFeatures features pred
                   else NODEOut.withTraj pred proj))
      | _ => ({ m with flow := flow2 }, none)
  | _ => ({ m with flow := flow1 }, none)

/-- `NeuralODE.forward(x, return_features)`: the source fixes
`cross_entropy = True` and `fixed_projector = False` inside the body, and
the projector file is never opened. -/
def NeuralODE.forward (m : NeuralODE) (x : Mat) (return_features : Bool) :
    NeuralODE × Option NODEOut :=
  m.forwardFull true false none x return_features

/-- Modelled from the spec ("Applies a single shared learnable affine
readout (linear_layer) to both `features` (→ prediction) and every point
of `trajectory` (→ projected_trajectory)", "An optional final nonlinearity
on outputs is ... disabled ... when the task is classification via a
cross-entropy-style loss (raw logits expected)"): the learnable-readout
path with raw affine outputs and no file access, to be compared with
`NeuralODE.forward`. -/
def NeuralODE.rawReadoutForward (m : NeuralODE) (x : Mat)
    (return_features : Bool) : NeuralODE × Option NODEOut :=
  let (flow1, fout) := m.flow.forward x none
  match fout with
  | some (FlowOut.single features) =>
    let (flow2, tout) := flow1.trajectory x time_steps
    match tout with
    | some (FlowOut.states traj) =>
      match linApply m.linear_layer features with
      | none => ({ m with flow := flow2, traj := some traj }, none)
      | some pred =>
        match mapO (linApply m.linear_layer) traj with
        | none => ({ m with flow := flow2, traj := some traj }, none)
        | some proj =>
          ({ m with flow := flow2, traj := some traj, proj_traj := some proj },
           some (if return_features then NODEOut.withFeatures features pred
                 else NODEOut.withTraj pred proj))
    | _ => ({ m with flow := flow2 }, none)
  | _ => ({ m with flow := flow1 }, none)

/-- Times at which the solver inside `Semiflow.forward (x, eval_times)`
queries the vector field (the left endpoint of each processed grid
interval, in order, failing call included). -/
def queriedTimes (s : Semiflow) (x : Mat) (eval_times : Option (List ℚ)) :
    List ℚ :=
  (odeintEuler { s.dynamics with nfe := 0 } (augmentInput s.dynamics x)
    (integrationTime eval_times) dt).2.1

/-! ### Concrete instances used by witnesses and counterexamples -/

/-- Constant parameter block `(weight, bias) = ([[1]], [0])`. -/
def blkOne : ℕ → Mat × Vec := fun _ => ([[1]], [0])

/-- Constant parameter block `(weight, bias) = ([[0]], [1])`. -/
def blkDrift : ℕ → Mat × Vec := fun _ => ([[0]], [1])

/-- Constant zero `2 × 2` parameter block. -/
def blkZero2 : ℕ → Mat × Vec :=
  fun _ => (List.replicate 2 (List.replicate 2 (0 : ℚ)), List.replicate 2 0)

/-- Constant zero `4 × 4` parameter block. -/
def blkZero4 : ℕ → Mat × Vec :=
  fun _ => (List.replicate 4 (List.replicate 4 (0 : ℚ)), List.replicate 4 0)

/-- Family of zero-initialised `2 → 2` dynamics over an arbitrary
pointwise `tanh` stand-in `σfn` and evaluation count `n`:
`Dynamics.init 2 2 0 σfn _ "tanh" blkZero2 blkZero2 blkZero2` produces
`dZeroFam σfn 0`. -/
def dZeroFam (σfn : ℚ → ℚ) (n : ℕ) : Dynamics :=
  { augment_dim := 0, data_dim := 2, input_dim := 2, hidden_dim := 2,
    nfe := n, non_linearity := ⟨σfn, false⟩, species := -1,
    fc1_time := [], fc3_time := [],
    fc2_time := (List.range time_steps).map blkZero2 }

/-- Zero-initialised `2 → 2` dynamics with the (identity-instantiated)
`tanh` activation: the value of
`Dynamics.init 2 2 0 id id "tanh" blkZero2 blkZero2 blkZero2`. -/
def dZero2 : Dynamics :=
  { augment_dim := 0, data_dim := 2, input_dim := 2, hidden_dim := 2,
    nfe := 0, non_linearity := ⟨fun q => q, false⟩, species := -1,
    fc1_time := [], fc3_time := [],
    fc2_time := List.replicate 15 ([[0, 0], [0, 0]], [0, 0]) }

/-- Zero-initialised `NeuralODE` over `dZero2` with a zero readout. -/
def mZero : NeuralODE :=
  { data_dim := 2, hidden_dim := 2, augment_dim := 0, output_dim := 2,
    tol := 1 / 1000,
    flow := { adjoint := false, dynamics := dZero2, tol := 1 / 1000 },
    linear_layer := ⟨[[0, 0], [0, 0]], [0, 0]⟩,
    non_linearity := fun q => q, traj := none, proj_traj := none }

/-- Zero-initialised dynamics with one data and one augmentation channel:
the value of `Dynamics.init 1 2 1 id id "relu" blkZero2 blkZero2 blkZero2`. -/
def dAug : Dynamics :=
  { augment_dim := 1, data_dim := 1, input_dim := 2, hidden_dim := 2,
    nfe := 0, non_linearity := ⟨reluFn, true⟩, species := -1,
    fc1_time := [], fc3_time := [],
    fc2_time := List.replicate 15 ([[0, 0], [0, 0]], [0, 0]) }

/-- Semiflow over `dAug`. -/
def sAug : Semiflow :=
  { adjoint := false, dynamics := dAug, tol := 1 / 1000 }

/-- One-dimensional `relu` dynamics with zero weight and unit bias: the
vector field is constantly `[[1]]`, so states drift at unit speed. -/
def dDrift : Dynamics :=
  { augment_dim := 0, data_dim := 1, input_dim := 1, hidden_dim := 1,
    nfe := 0, non_linearity := ⟨reluFn, true⟩, species := -1,
    fc1_time := [], fc3_time := [],
    fc2_time := List.replicate 15 ([[0]], [1]) }

/-- Semiflow over `dDrift`. -/
def sDrift : Semiflow :=
  { adjoint := false, dynamics := dDrift, tol := 1 / 1000 }

/-- The `Dynamics` produced by
`Dynamics.init 1 1 0 id id "tanh" blkOne blkOne blkOne`. -/
def dTanhW : Dynamics :=
  { augment_dim := 0, data_dim := 1, input_dim := 1, hidden_dim := 1,
    nfe := 0, non_linearity := ⟨fun q => q, false⟩, species := -1,
    fc1_time := [], fc3_time := [],
    fc2_time := List.replicate 15 ([[1]], [0]) }

/-! ### Theorems -/

/-- The step width is positive: `dt = 10/15 > 0`. -/
lemma dt_pos : (0 : ℚ) < dt := by norm_num [dt, T, time_steps]

/-- For `0 ≤ t < T` the step index is in `[0, time_steps)`. -/
lemma stepIndex_bounds_aux (t : ℚ) (h0 : 0 ≤ t) (hT : t < T) :
    0 ≤ stepIndex t ∧ stepIndex t < (time_steps : ℤ) := by
  have hq : 0 ≤ t / dt := div_nonneg h0 dt_pos.le
  have hstep : stepIndex t = ⌊t / dt⌋ := by rw [stepIndex, pyInt, if_pos hq]
  refine ⟨hstep ▸ Int.floor_nonneg.mpr hq, ?_⟩
  rw [hstep]
  refine Int.floor_lt.mpr ?_
  have hmul : ((time_steps : ℤ) : ℚ) * dt = T := by
    norm_num [dt, T, time_steps]
  rw [div_lt_iff₀ dt_pos, hmul]
  exact hT

/-- Indexing an `n`-entry bank built by `(List.range n).map f` at a step
index known to lie in `[0, n)` succeeds. -/
lemma pyIndex_range_map {α : Type} (f : ℕ → α) (n : ℕ) (k : ℤ)
    (h0 : 0 ≤ k) (hn : k < (n : ℤ)) :
    pyIndex ((List.range n).map f) k = some (f k.toNat) := by
  rw [pyIndex, if_pos h0]
  have hk : k.toNat < ((List.range n).map f).length := by
    rw [List.length_map, List.length_range]
    omega
  rw [List.get?_eq_get hk]
  simp [List.get_map]

/-- C1: for every time `t` with `0 ≤ t < T`, the step index
`k = int(t/dt)` computed by `Dynamics.forward` satisfies
`0 ≤ k < time_steps`, so selecting the `k`-th weight/bias pair from a
parameter bank of `time_steps` entries is in bounds. -/
theorem stepIndex_in_bounds (t : ℚ) (h0 : 0 ≤ t) (hT : t < T) :
    0 ≤ stepIndex t ∧ stepIndex t < (time_steps : ℤ) ∧
      ∀ bank : List (Mat × Vec), bank.length = time_steps →
        (pyIndex bank (stepIndex t)).isSome := by
  obtain ⟨h0', hlt⟩ := stepIndex_bounds_aux t h0 hT
  refine ⟨h0', hlt, fun bank hlen => ?_⟩
  rw [pyIndex, if_pos h0']
  have h15 : time_steps = 15 := rfl
  have hnat : (stepIndex t).toNat < bank.length := by
    rw [hlen, h15]
    rw [h15] at hlt
    omega
  rw [List.get?_eq_get hnat]
  rfl

/-- Witness for C1 at `t = 3` with a 15-entry bank. -/
theorem stepIndex_in_bounds_witness :
    0 ≤ stepIndex 3 ∧ stepIndex 3 < (time_steps : ℤ) ∧
      (pyIndex (List.replicate 15 (([] : Mat), ([] : Vec))) (stepIndex 3)).isSome := by
  obtain ⟨h1, h2, h3⟩ := stepIndex_in_bounds 3 (by norm_num) (by norm_num [T])
  exact ⟨h1, h2, h3 _ (by simp [time_steps])⟩

/-- C2: for every batch `x` and every parameter configuration, the second
element of `Semiflow.forward (x, eval_times = [0, T])` equals the value of
`Semiflow.forward (x, eval_times = None)` (terminal-state equivalence):
both calls integrate over the same time tensor `[0, T]`. -/
theorem terminal_state_equiv (s : Semiflow) (x : Mat) :
    ((s.forward x (some [0, T])).2.bind FlowOut.second) =
      ((s.forward x none).2.bind FlowOut.term) := by
  unfold Semiflow.forward
  rcases h : odeintEuler { s.dynamics with nfe := 0 } (augmentInput s.dynamics x)
      (integrationTime (some [0, T])) dt with ⟨d', q, out?⟩
  have h2 : odeintEuler { s.dynamics with nfe := 0 } (augmentInput s.dynamics x)
      (integrationTime none) dt = (d', q, out?) := h
  cases hA : s.adjoint <;>
    simp only [hA, if_true, if_false, Bool.false_eq_true, h, h2] <;>
    cases out? with
  | none => rfl
  | some out =>
    rcases h3 : out[1]? with _ | m <;>
      simp [FlowOut.second, FlowOut.term, h3]

/-- C9: constructing `Dynamics` succeeds exactly for the four supported
nonlinearity names; an unknown name makes the constructor fail (the
`KeyError` is raised by the dictionary lookup before any parameter bank is
built or any evaluation can happen). -/
theorem init_fails_fast (data_dim hidden_dim augment_dim : ℕ)
    (tanhFn sigmoidFn : ℚ → ℚ) (name : String)
    (blocks1 blocks blocks3 : ℕ → Mat × Vec) :
    (Dynamics.init data_dim hidden_dim augment_dim tanhFn sigmoidFn name
        blocks1 blocks blocks3).isSome ↔
      name ∈ ["tanh", "relu", "sigmoid", "leakyrelu"] := by
  have hact : (Dynamics.init data_dim hidden_dim augment_dim tanhFn sigmoidFn
      name blocks1 blocks blocks3).isSome
      = (activations tanhFn sigmoidFn name).isSome := by
    cases h : activations tanhFn sigmoidFn name with
    | none => simp [Dynamics.init, h]
    | some σ => simp [Dynamics.init, h, apply_ite Option.isSome]
  rw [hact]
  unfold activations
  split_ifs with h1 h2 h3 h4 <;> simp_all

/-- C10: `NeuralODE.forward` always takes the learnable-readout branch
with raw affine outputs.  Because the body fixes `cross_entropy = True`
and `fixed_projector = False`, the result is independent of the
serialized-projector file (that branch is unreachable) and equal to
`rawReadoutForward`, which applies no final `tanh`. -/
theorem forward_raw_readout (m : NeuralODE) (x : Mat)
    (return_features : Bool) (file : Option (Mat × Vec)) :
    m.forwardFull true false file x return_features =
      m.rawReadoutForward x return_features := by
  unfold NeuralODE.forwardFull NeuralODE.rawReadoutForward
  rcases hf : m.flow.forward x none with ⟨flow1, fout⟩
  rcases fout with _ | f
  · rfl
  rcases f with feat | l
  · rcases ht : flow1.trajectory x time_steps with ⟨flow2, tout⟩
    rcases tout with _ | t
    · rfl
    rcases t with mm | traj
    · rfl
    rcases hp : linApply m.linear_layer feat with _ | pred0
    · rfl
    rcases hq : mapO (linApply m.linear_layer) traj with _ | proj0
    · rfl
    rfl
  · rfl

/-- With a non-in-place activation, `Dynamics.forward` leaves the state
tensor unchanged in every species branch. -/
lemma forward_keeps_state (d : Dynamics)
    (hin : d.non_linearity.inplace = false) (t : ℚ) (x out x' : Mat)
    (hfwd : (d.forward t x).2 = some (out, x')) : x' = x := by
  unfold Dynamics.forward at hfwd
  simp only [hin, Bool.false_eq_true, if_false] at hfwd
  split at hfwd
  · split at hfwd
    · simp at hfwd
    · split at hfwd
      · split at hfwd <;> simp_all
      · split at hfwd <;> simp_all
  · split at hfwd
    · split at hfwd
      · simp at hfwd
      · split at hfwd <;> simp_all
    · simp at hfwd

/-- Counterexample to C8: the `relu` entry of the `activations` dictionary
is `nn.ReLU(inplace=True)`, so in the `w(t)σ(x(t))+b(t)` branch the state
tensor is overwritten with `σ(x)`.  With unit weight, zero bias and
`x = [[-1]]`, the call returns derivative `[[0]]` and leaves the state at
`[[0]] ≠ [[-1]]`.  (The shape failure is independent of the abstract
activation maps, instantiated here with the identity.) -/
theorem inplace_mutation_cex :
    ((Dynamics.init 1 1 0 (fun q => q) (fun q => q) "relu"
        blkOne blkOne blkOne).map
      fun d => (d.forward 0 [[-1]]).2.map Prod.snd) = some (some [[0]]) ∧
      ([[(-1 : ℚ)]] : Mat) ≠ [[0]] := by
  constructor
  · with_unfolding_all decide
  · with_unfolding_all decide

/-- C8 (amended): for the non-in-place activations `tanh` and `sigmoid`,
`Dynamics.forward (t, x)` leaves `x` unchanged — the derivative is a fresh
value.  (`relu` and `leakyrelu` are constructed with `inplace=True` and
overwrite `x` with `σ(x)` in the `w(t)σ(x(t))+b(t)` branch, as the
counterexample shows.) -/
theorem non_inplace_keeps_state (data_dim hidden_dim augment_dim : ℕ)
    (tanhFn sigmoidFn : ℚ → ℚ) (name : String)
    (blocks1 blocks blocks3 : ℕ → Mat × Vec) (d : Dynamics)
    (hname : name = "tanh" ∨ name = "sigmoid")
    (hinit : Dynamics.init data_dim hidden_dim augment_dim tanhFn sigmoidFn
        name blocks1 blocks blocks3 = some d)
    (t : ℚ) (x out x' : Mat)
    (hfwd : (d.forward t x).2 = some (out, x')) : x' = x := by
  refine forward_keeps_state d ?_ t x out x' hfwd
  rcases hname with h | h <;> subst h <;>
    simp only [Dynamics.init, activations] at hinit <;>
    simp at hinit <;>
    rcases hinit with ⟨rfl⟩ <;>
    rfl

/-- Witness for C8 (amended): the `tanh` dynamics `dTanhW` at `t = 0`,
`x = [[1]]` succeeds and hands the state back unchanged. -/
theorem non_inplace_keeps_state_witness :
    (dTanhW.forward 0 [[1]]).2 = some ([[1]], [[1]]) ∧
      ([[(1 : ℚ)]] : Mat) = [[1]] :=
  ⟨by with_unfolding_all decide,
   non_inplace_keeps_state 1 1 0 (fun q => q) (fun q => q) "tanh"
     blkOne blkOne blkOne dTanhW (Or.inl rfl) rfl 0 [[1]] [[1]] [[1]]
     (by with_unfolding_all decide)⟩

/-- Computation of `NeuralODE.forward` when every stage succeeds. -/
lemma forwardFull_learnable (m : NeuralODE) (x : Mat) (rf : Bool)
    (flow1 flow2 : Semiflow) (feat : Mat) (traj : List Mat)
    (pred : Mat) (proj : List Mat)
    (hf : m.flow.forward x none = (flow1, some (FlowOut.single feat)))
    (ht : flow1.trajectory x time_steps = (flow2, some (FlowOut.states traj)))
    (hp : linApply m.linear_layer feat = some pred)
    (hq : mapO (linApply m.linear_layer) traj = some proj) :
    m.forward x rf =
      ({ m with flow := flow2, traj := some traj, proj_traj := some proj },
       some (if rf then NODEOut.withFeatures feat pred
             else NODEOut.withTraj pred proj)) := by
  unfold NeuralODE.forward NeuralODE.forwardFull
  rw [hf]
  dsimp only
  rw [ht]
  dsimp only
  rw [hp, hq]
  cases rf <;> rfl

/-- C4: the features returned by `NeuralODE.forward (x, return_features =
True)`, passed manually through the shared affine readout `linear_layer`,
equal the prediction returned by `NeuralODE.forward (x, return_features =
False)`; the same readout is applied to the terminal features and to every
point of the retained trajectory. -/
theorem readout_consistency (m : NeuralODE) (x : Mat) (f p : Mat)
    (h : (m.forward x true).2 = some (NODEOut.withFeatures f p)) :
    linApply m.linear_layer f = some p ∧
      ∃ l tr, (m.forward x false).2 = some (NODEOut.withTraj p l) ∧
        (m.forward x false).1.traj = some tr ∧
        mapO (linApply m.linear_layer) tr = some l := by
  unfold NeuralODE.forward NeuralODE.forwardFull at h
  rcases hf : m.flow.forward x none with ⟨flow1, fout⟩
  rw [hf] at h
  dsimp only at h
  rcases fout with _ | f0
  · simp at h
  rcases f0 with feat | l0
  swap
  · simp at h
  dsimp only at h
  rcases ht : flow1.trajectory x time_steps with ⟨flow2, tout⟩
  rw [ht] at h
  dsimp only at h
  rcases tout with _ | t0
  · simp at h
  rcases t0 with mm | traj
  · simp at h
  dsimp only at h
  rcases hp : linApply m.linear_layer feat with _ | pred0
  · rw [hp] at h; simp at h
  rcases hq : mapO (linApply m.linear_layer) traj with _ | proj0
  · rw [hp, hq] at h; simp at h
  rw [hp, hq] at h
  dsimp only at h
  obtain ⟨hfe, hpr⟩ : feat = f ∧ pred0 = p := by
    have h' := Option.some.inj h
    cases h'
    exact ⟨rfl, rfl⟩
  subst hfe
  subst hpr
  rw [forwardFull_learnable m x false flow1 flow2 feat traj pred0 proj0 hf ht hp hq]
  exact ⟨hp, proj0, traj, rfl, rfl, hq⟩

/-- Witness for C4 on the zero-initialised model at `x = [[3, 5]]`. -/
theorem readout_consistency_witness :
    (mZero.forward [[3, 5]] true).2 =
        some (NODEOut.withFeatures [[3, 5]] [[0, 0]]) ∧
      linApply mZero.linear_layer [[3, 5]] = some [[0, 0]] := by
  have h : (mZero.forward [[3, 5]] true).2 =
      some (NODEOut.withFeatures [[3, 5]] [[0, 0]]) := by
    with_unfolding_all decide
  exact ⟨h, (readout_consistency mZero [[3, 5]] [[3, 5]] [[0, 0]] h).1⟩

/-- Members of a `zipWith` come from members of the two lists. -/
lemma exists_of_mem_zipWith {α β γ : Type} (f : α → β → γ) :
    ∀ (l1 : List α) (l2 : List β) (c : γ), c ∈ List.zipWith f l1 l2 →
      ∃ a b, a ∈ l1 ∧ b ∈ l2 ∧ c = f a b
  | [], _, c, h => by simp at h
  | _ :: _, [], c, h => by simp at h
  | a :: l1, b :: l2, c, h => by
    rcases List.mem_cons.mp h with h | h
    · exact ⟨a, b, List.mem_cons_self a l1, List.mem_cons_self b l2, h⟩
    · rcases exists_of_mem_zipWith f l1 l2 c h with ⟨a', b', h1, h2, h3⟩
      exact ⟨a', b', List.mem_cons_of_mem _ h1, List.mem_cons_of_mem _ h2, h3⟩

/-- Row lengths survive `actApply`. -/
lemma actApply_rows (a : Activation) (x : Mat) (n : ℕ)
    (hx : ∀ r ∈ x, r.length = n) : ∀ r ∈ actApply a x, r.length = n := by
  intro r hr
  rcases List.mem_map.mp hr with ⟨r0, hr0, rfl⟩
  rw [List.length_map]
  exact hx r0 hr0

/-- Row lengths of the left operand survive a successful `matAdd`. -/
lemma matAdd_rows (n : ℕ) :
    ∀ (a b c : Mat), matAdd a b = some c →
      (∀ r ∈ a, r.length = n) → ∀ r ∈ c, r.length = n
  | [], [], c, h, _ => by
    have h' : ([] : Mat) = c := Option.some.inj h
    subst h'; intro r hr; simp at hr
  | [], _ :: _, c, h, _ => Option.noConfusion h
  | _ :: _, [], c, h, _ => Option.noConfusion h
  | r0 :: a, s0 :: b, c, h, ha => by
    rw [matAdd] at h
    split at h
    case isTrue hlen =>
      rcases hc : matAdd a b with _ | c0
      · rw [hc] at h; exact Option.noConfusion h
      · rw [hc] at h
        simp only [Option.map_some', Option.some.injEq] at h
        subst h
        intro r hr
        rcases List.mem_cons.mp hr with hr | hr
        · subst hr
          have h1 : r0.length = n := ha r0 (List.mem_cons_self r0 a)
          rw [List.length_zipWith]
          omega
        · exact matAdd_rows n a b c0 hc (fun r h => ha r (List.mem_cons_of_mem _ h)) r hr
    case isFalse => simp at h

/-- The state handed back by a successful `Dynamics.forward` is either the
argument itself or its in-place activation image. -/
lemma forward_state_vals (d : Dynamics) (t : ℚ) (x out x' : Mat)
    (hfwd : (d.forward t x).2 = some (out, x')) :
    x' = x ∨ x' = actApply d.non_linearity x := by
  cases hinpl : d.non_linearity.inplace
  · exact Or.inl (forward_keeps_state d hinpl t x out x' hfwd)
  · unfold Dynamics.forward at hfwd
    simp only [hinpl, if_true] at hfwd
    split at hfwd
    · split at hfwd
      · simp at hfwd
      · split at hfwd
        · split at hfwd
          · simp at hfwd
          · simp only [Option.some.injEq, Prod.mk.injEq] at hfwd
            exact Or.inr hfwd.2.symm
        · split at hfwd
          · simp at hfwd
          · simp only [Option.some.injEq, Prod.mk.injEq] at hfwd
            exact Or.inl hfwd.2.symm
    · split at hfwd
      · split at hfwd
        · simp at hfwd
        · split at hfwd
          · simp at hfwd
          · simp only [Option.some.injEq, Prod.mk.injEq] at hfwd
            exact Or.inl hfwd.2.symm
      · simp at hfwd

/-- Row lengths survive a doubly-nested `zipWith`. -/
lemma zipWith2_rows (f : ℚ → ℚ → ℚ) (a b : Mat) (n : ℕ)
    (ha : ∀ r ∈ a, r.length = n) (hb : ∀ r ∈ b, r.length = n) :
    ∀ r ∈ List.zipWith (List.zipWith f) a b, r.length = n := by
  intro r hr
  rcases exists_of_mem_zipWith _ a b r hr with ⟨ra, rb, hra, hrb, rfl⟩
  rw [List.length_zipWith, ha ra hra, hb rb hrb]
  omega

/-- Row lengths survive `matScale`. -/
lemma matScale_rows (c : ℚ) (m : Mat) (n : ℕ)
    (hm : ∀ r ∈ m, r.length = n) : ∀ r ∈ matScale c m, r.length = n := by
  intro r hr
  rcases List.mem_map.mp hr with ⟨r0, hr0, rfl⟩
  rw [List.length_map]
  exact hm r0 hr0

/-- Row lengths survive the solver's linear interpolation. -/
lemma linInterp_rows (t0 t1 t : ℚ) (y0 y1 : Mat) (n : ℕ)
    (h0 : ∀ r ∈ y0, r.length = n) (h1 : ∀ r ∈ y1, r.length = n) :
    ∀ r ∈ linInterp t0 t1 y0 y1 t, r.length = n := by
  unfold linInterp
  split
  · exact h0
  split
  · exact h1
  exact zipWith2_rows _ y0 _ n h0
    (matScale_rows _ _ n (zipWith2_rows _ y1 y0 n h1 h0))

/-- The `interpFill` loop splits the requested times into a consumed
prefix — each at most `t1`, each emitted through `linInterp` — and the
remaining suffix. -/
lemma interpFill_spec (t0 t1 : ℚ) (y0 y1 : Mat) :
    ∀ ts : List ℚ, ∃ consumed : List ℚ,
      ts = consumed ++ (interpFill t0 t1 y0 y1 ts).2 ∧
      (interpFill t0 t1 y0 y1 ts).1 =
        consumed.map (linInterp t0 t1 y0 y1) ∧
      ∀ u ∈ consumed, u ≤ t1
  | [] => ⟨[], by simp [interpFill]⟩
  | tj :: rest => by
    rw [interpFill]
    split
    case isTrue hle =>
      rcases interpFill_spec t0 t1 y0 y1 rest with ⟨consumed, h1, h2, h3⟩
      refine ⟨tj :: consumed, ?_, ?_, ?_⟩
      · simpa using h1
      · simpa using h2
      · intro u hu
        rcases List.mem_cons.mp hu with rfl | hu
        · exact hle
        · exact h3 u hu
    case isFalse hgt => exact ⟨[], by simp⟩

/-- Row lengths are preserved by every state the stepping loop emits. -/
lemma odeSteps_rows (n : ℕ) :
    ∀ (pairs : List (ℚ × ℚ)) (d : Dynamics) (y : Mat) (ts : List ℚ)
      (d' : Dynamics) (q : List ℚ) (sol : List Mat),
      odeSteps d pairs y ts = (d', q, some sol) →
      (∀ r ∈ y, r.length = n) → ∀ mat ∈ sol, ∀ r ∈ mat, r.length = n
  | [], d, y, ts, d', q, sol, h, hy => by
    rw [odeSteps] at h
    split at h
    · injection h with h1 h23
      injection h23 with h2 h3
      have h' : ([] : List Mat) = sol := Option.some.inj h3
      subst h'
      intro mat hmat
      simp at hmat
    · injection h with h1 h23
      injection h23 with h2 h3
      exact Option.noConfusion h3
  | (t0, t1) :: rest, d, y, ts, d', q, sol, h, hy => by
    rw [odeSteps] at h
    rcases hd : d.forward t0 y with ⟨d1, r1⟩
    rw [hd] at h
    dsimp only at h
    rcases r1 with _ | ⟨f0, y0m⟩
    · injection h with h1 h23
      injection h23 with h2 h3
      exact Option.noConfusion h3
    · dsimp only at h
      have hy0m : ∀ r ∈ y0m, r.length = n := by
        rcases forward_state_vals d t0 y f0 y0m (by rw [hd]) with rfl | rfl
        · exact hy
        · exact actApply_rows _ _ n hy
      rcases hA : matAdd y0m (matScale (t1 - t0) f0) with _ | y1
      · rw [hA] at h
        dsimp only at h
        injection h with h1 h23
        injection h23 with h2 h3
        exact Option.noConfusion h3
      · rw [hA] at h
        dsimp only at h
        have hy1 : ∀ r ∈ y1, r.length = n := matAdd_rows n _ _ _ hA hy0m
        rcases hR : odeSteps d1 rest y1 (interpFill t0 t1 y0m y1 ts).2
          with ⟨d2, q2, res2⟩
        rw [hR] at h
        dsimp only at h
        rcases res2 with _ | sol2
        · injection h with h1 h23
          injection h23 with h2 h3
          exact Option.noConfusion h3
        · injection h with h1 h23
          injection h23 with h2 h3
          have h' : (interpFill t0 t1 y0m y1 ts).1 ++ sol2 = sol :=
            Option.some.inj h3
          subst h'
          intro mat hmat
          rcases List.mem_append.mp hmat with hmat | hmat
          · rcases interpFill_spec t0 t1 y0m y1 ts with ⟨consumed, -, h2', -⟩
            rw [h2'] at hmat
            rcases List.mem_map.mp hmat with ⟨u, -, rfl⟩
            exact linInterp_rows t0 t1 u y0m y1 n hy0m hy1
          · exact odeSteps_rows n rest d1 y1 _ d2 q2 sol2 hR hy1 mat hmat

/-- Row lengths are preserved by every state `odeintEuler` returns. -/
lemma odeintEuler_rows (d : Dynamics) (y : Mat) (t : List ℚ) (step : ℚ)
    (n : ℕ) (d' : Dynamics) (q : List ℚ) (sol : List Mat)
    (h : odeintEuler d y t step = (d', q, some sol))
    (hy : ∀ r ∈ y, r.length = n) : ∀ mat ∈ sol, ∀ r ∈ mat, r.length = n := by
  unfold odeintEuler at h
  rcases t with _ | ⟨t0, trest⟩
  · dsimp only at h
    injection h with h1 h23
    injection h23 with h2 h3
    exact Option.noConfusion h3
  · dsimp only at h
    rcases hS : odeSteps d
        ((gridConstructor step (t0 :: trest)).zip
          (gridConstructor step (t0 :: trest)).tail) y trest
      with ⟨dS, qS, resS⟩
    rw [hS] at h
    dsimp only at h
    rcases resS with _ | filled
    · injection h with h1 h23
      injection h23 with h2 h3
      exact Option.noConfusion h3
    · injection h with h1 h23
      injection h23 with h2 h3
      have h' : y :: filled = sol := Option.some.inj h3
      subst h'
      intro mat hmat
      rcases List.mem_cons.mp hmat with rfl | hmat
      · exact hy
      · exact odeSteps_rows n _ d y trest dS qS filled hS hy mat hmat

/-- Row lengths of the augmented input are preserved by every state
`Semiflow.forward` returns. -/
lemma semiflow_forward_rows (s : Semiflow) (x : Mat) (et : Option (List ℚ))
    (n : ℕ) (hx : ∀ r ∈ augmentInput s.dynamics x, r.length = n) :
    ∀ o, (s.forward x et).2 = some o →
      ∀ mat ∈ o.toList, ∀ r ∈ mat, r.length = n := by
  intro o ho
  unfold Semiflow.forward at ho
  dsimp only at ho
  rw [ite_self] at ho
  rcases hE : odeintEuler { s.dynamics with nfe := 0 }
      (augmentInput s.dynamics x) (integrationTime et) dt with ⟨d', q, out?⟩
  rw [hE] at ho
  dsimp only at ho
  rcases out? with _ | out
  · exact Option.noConfusion ho
  · have hall := odeintEuler_rows _ _ _ _ n d' q out hE hx
    rcases et with _ | ets
    · dsimp only at ho
      rcases hg : out.get? 1 with _ | mterm
      · rw [hg] at ho; exact Option.noConfusion ho
      · rw [hg] at ho
        have h' : FlowOut.single mterm = o := Option.some.inj ho
        subst h'
        intro mat hmat
        simp only [FlowOut.toList, List.mem_singleton] at hmat
        subst hmat
        exact hall mat (List.get?_mem hg)
    · dsimp only at ho
      have h' : FlowOut.states out = o := Option.some.inj ho
      subst h'
      exact hall

/-- C5: when `augment_dim = 0`, `Semiflow.forward` integrates the raw
input unchanged and every returned state keeps feature dimension
`data_dim`; when `augment_dim = a > 0`, the (already flat, 2-D) input gets
`a` zero columns concatenated, the last `a` components of the initial
state are exactly zero, and every returned state has feature dimension
`data_dim + a`. -/
theorem augmentation_invariant (s : Semiflow) (x : Mat)
    (et : Option (List ℚ))
    (hx : ∀ r ∈ x, r.length = s.dynamics.data_dim) :
    (s.dynamics.augment_dim = 0 →
        augmentInput s.dynamics x = x ∧
        ∀ o, (s.forward x et).2 = some o →
          ∀ mat ∈ o.toList, ∀ r ∈ mat, r.length = s.dynamics.data_dim) ∧
    (0 < s.dynamics.augment_dim →
        augmentInput s.dynamics x =
          x.map (fun r => r ++ List.replicate s.dynamics.augment_dim 0) ∧
        (∀ r ∈ augmentInput s.dynamics x,
            r.length = s.dynamics.data_dim + s.dynamics.augment_dim ∧
            r.drop s.dynamics.data_dim =
              List.replicate s.dynamics.augment_dim 0) ∧
        ∀ o, (s.forward x et).2 = some o →
          ∀ mat ∈ o.toList, ∀ r ∈ mat,
            r.length = s.dynamics.data_dim + s.dynamics.augment_dim) := by
  constructor
  · intro h0
    have haug : augmentInput s.dynamics x = x := by
      unfold augmentInput
      rw [h0]
      simp
    exact ⟨haug,
      semiflow_forward_rows s x et s.dynamics.data_dim
        (by rw [haug]; exact hx)⟩
  · intro hpos
    have haug : augmentInput s.dynamics x =
        x.map (fun r => r ++ List.replicate s.dynamics.augment_dim 0) := by
      unfold augmentInput
      rw [if_pos hpos]
    have hrows : ∀ r ∈ augmentInput s.dynamics x,
        r.length = s.dynamics.data_dim + s.dynamics.augment_dim ∧
        r.drop s.dynamics.data_dim =
          List.replicate s.dynamics.augment_dim 0 := by
      rw [haug]
      intro r hr
      rcases List.mem_map.mp hr with ⟨r0, hr0, rfl⟩
      have hl : r0.length = s.dynamics.data_dim := hx r0 hr0
      constructor
      · rw [List.length_append, List.length_replicate, hl]
      · rw [← hl, List.drop_left]
    exact ⟨haug, hrows,
      semiflow_forward_rows s x et _ (fun r hr => (hrows r hr).1)⟩

set_option maxRecDepth 10000 in
/-- Witness for C5: the `augment_dim = 0` clause on the zero model at
`x = [[3, 5]]` and the `augment_dim = 1` clause on `sAug` at `x = [[5]]`. -/
theorem augmentation_invariant_witness :
    (augmentInput mZero.flow.dynamics [[3, 5]] = [[3, 5]] ∧
      ∀ mat ∈ (FlowOut.single [[(3 : ℚ), 5]]).toList, ∀ r ∈ mat,
        r.length = 2) ∧
    (augmentInput sAug.dynamics [[5]] = [[5, 0]] ∧
      (∀ r ∈ augmentInput sAug.dynamics [[5]],
          r.length = 2 ∧ r.drop 1 = [0]) ∧
      ∀ mat ∈ (FlowOut.single [[(5 : ℚ), 0]]).toList, ∀ r ∈ mat,
        r.length = 2) := by
  have hz := (augmentation_invariant mZero.flow [[3, 5]] none
    (by decide)).1 rfl
  have ha := (augmentation_invariant sAug [[5]] none (by decide)).2
    (by decide)
  refine ⟨⟨hz.1, hz.2 (FlowOut.single [[3, 5]]) ?_⟩,
    ⟨ha.1, ha.2.1, ha.2.2 (FlowOut.single [[5, 0]]) ?_⟩⟩
  · with_unfolding_all decide
  · with_unfolding_all decide

/-- Inner product with a zero row of matching length is zero. -/
lemma dot_zero2 : ∀ r : Vec, r.length = 2 → dot r [0, 0] = some 0
  | [], h => by simp at h
  | [a], h => by simp at h
  | [a, b], _ => by simp [dot]
  | a :: b :: c :: r, h => by simp at h

/-- Matrix product with the zero `2 × 2` weight sends every 2-column
batch to the zero batch. -/
lemma matmulT_zero22 : ∀ y : Mat, (∀ r ∈ y, r.length = 2) →
    matmulT y [[0, 0], [0, 0]] = some (y.map fun r => [0, 0])
  | [], _ => rfl
  | r :: ys, hy => by
    have hr := dot_zero2 r (hy r (List.mem_cons_self r ys))
    have ih := matmulT_zero22 ys fun s hs => hy s (List.mem_cons_of_mem _ hs)
    have hrow : mapO (fun wrow => dot r wrow) [[0, 0], [0, 0]]
        = some [0, 0] := by
      rw [mapO, mapO, mapO, hr]
      rfl
    unfold matmulT at ih ⊢
    rw [mapO, hrow, ih]
    rfl

/-- Adding the zero bias to a batch of `[0, 0]` rows is the identity. -/
lemma addBias_zero2 : ∀ z : Mat, (∀ r ∈ z, r = [0, 0]) →
    addBias z [0, 0] = some z
  | [], _ => rfl
  | r :: z, h => by
    have hr : r = [0, 0] := h r (List.mem_cons_self r z)
    subst hr
    have ih := addBias_zero2 z fun s hs => h s (List.mem_cons_of_mem _ hs)
    have hz : List.zipWith (· + ·) ([0, 0] : Vec) [0, 0] = [0, 0] := by
      norm_num
    unfold addBias at ih ⊢
    rw [mapO, if_pos rfl, hz, ih]
    rfl

/-- A zero-bank dynamics evaluates to the zero batch at every valid time
and leaves the state untouched. -/
lemma zero_dyn_forward (σfn : ℚ → ℚ) (n : ℕ) (t : ℚ) (x : Mat)
    (hx : ∀ r ∈ x, r.length = 2) (h0 : 0 ≤ t) (hT : t < T) :
    (dZeroFam σfn n).forward t x =
      (dZeroFam σfn (n + 1), some (x.map fun r => [0, 0], x)) := by
  obtain ⟨hk0, hk15⟩ := stepIndex_bounds_aux t h0 hT
  have hidx : pyIndex ((List.range time_steps).map blkZero2) (stepIndex t)
      = some ([[0, 0], [0, 0]], [0, 0]) :=
    pyIndex_range_map blkZero2 time_steps (stepIndex t) hk0 hk15
  have hmm : matmulT (actApply ⟨σfn, false⟩ x) [[0, 0], [0, 0]]
      = some ((actApply ⟨σfn, false⟩ x).map fun r => [0, 0]) :=
    matmulT_zero22 _ (actApply_rows _ x 2 hx)
  have hmap : ((actApply ⟨σfn, false⟩ x).map fun r => ([0, 0] : Vec))
      = x.map fun r => [0, 0] := by
    unfold actApply
    rw [List.map_map]
    rfl
  have hbias : addBias (x.map fun r => [0, 0]) [0, 0]
      = some (x.map fun r => [0, 0]) := by
    refine addBias_zero2 _ fun r hr => ?_
    rcases List.mem_map.mp hr with ⟨r0, -, rfl⟩
    rfl
  unfold Dynamics.forward
  simp only [dZeroFam]
  rw [if_pos (by norm_num : (-1 : ℤ) < 1), hidx]
  simp only [if_pos (by norm_num : (-1 : ℤ) < 0), hmm, Option.some_bind,
    hmap, hbias]
  rfl

/-- Elementwise difference of a row with itself is the zero row. -/
lemma zipWith_sub_self : ∀ r : Vec,
    List.zipWith (· - ·) r r = List.replicate r.length 0
  | [] => rfl
  | a :: r => by
    simp only [List.zipWith_cons_cons, List.length_cons, List.replicate_succ,
      zipWith_sub_self r, sub_self]

/-- Adding the zero row elementwise is the identity. -/
lemma zipWith_add_replicate : ∀ r : Vec,
    List.zipWith (· + ·) r (List.replicate r.length 0) = r
  | [] => rfl
  | a :: r => by
    simp only [List.length_cons, List.replicate_succ, List.zipWith_cons_cons,
      zipWith_add_replicate r, add_zero]

/-- `y + c • (y - y) = y`: the interpolation core is the identity when
both endpoint states agree. -/
lemma matAddT_scale_sub_self (c : ℚ) : ∀ x : Mat,
    matAddT x (matScale c (matSubT x x)) = x
  | [] => rfl
  | r :: xs => by
    have ih := matAddT_scale_sub_self c xs
    simp only [matAddT, matSubT, matScale] at ih ⊢
    rw [List.zipWith_cons_cons, List.map_cons, List.zipWith_cons_cons,
      zipWith_sub_self r, List.map_replicate, mul_zero,
      zipWith_add_replicate r, ih]

/-- Interpolating between two equal states gives that state back. -/
lemma linInterp_self (t0 t1 u : ℚ) (x : Mat) : linInterp t0 t1 x x u = x := by
  unfold linInterp
  split
  · rfl
  split
  · rfl
  exact matAddT_scale_sub_self _ x

/-- Scaling a batch of zero rows gives it back. -/
lemma matScale_zero_rows (c : ℚ) (x : Mat) :
    matScale c (x.map fun r => ([0, 0] : Vec)) = x.map fun r => [0, 0] := by
  unfold matScale
  rw [List.map_map]
  refine List.map_congr_left fun r hr => ?_
  show List.map (fun q => c * q) [0, 0] = [0, 0]
  norm_num

/-- Adding the zero batch to a 2-column batch gives it back. -/
lemma matAdd_zero2 : ∀ x : Mat, (∀ r ∈ x, r.length = 2) →
    matAdd x (x.map fun r => [0, 0]) = some x
  | [], _ => rfl
  | r :: xs, hx => by
    have hr : r.length = 2 := hx r (List.mem_cons_self r xs)
    have ih := matAdd_zero2 xs fun s hs => hx s (List.mem_cons_of_mem _ hs)
    rw [List.map_cons, matAdd, if_pos (by rw [hr]; rfl), ih]
    have hzip : List.zipWith (· + ·) r [0, 0] = r := by
      rcases r with _ | ⟨a, _ | ⟨b, _ | _⟩⟩ <;> simp at hr ⊢
    rw [hzip]
    rfl

/-- When every requested time has been reached, `interpFill` consumes the
whole list. -/
lemma interpFill_all (t0 t1 : ℚ) (y0 y1 : Mat) : ∀ ts : List ℚ,
    (∀ u ∈ ts, u ≤ t1) →
    interpFill t0 t1 y0 y1 ts = (ts.map (linInterp t0 t1 y0 y1), [])
  | [], _ => rfl
  | u :: ts, h => by
    rw [interpFill, if_pos (h u (List.mem_cons_self u ts)),
      interpFill_all t0 t1 y0 y1 ts fun v hv => h v (List.mem_cons_of_mem _ hv)]
    rfl

/-- Zero-bank dynamics: the Euler loop keeps the state constant and
reports every requested state equal to the initial one. -/
lemma zero_odeSteps (σfn : ℚ → ℚ) :
    ∀ (pairs : List (ℚ × ℚ)) (n : ℕ) (x : Mat) (ts : List ℚ),
      (∀ r ∈ x, r.length = 2) →
      (∀ p ∈ pairs, 0 ≤ p.1 ∧ p.1 < T) →
      (pairs ≠ [] → ∀ u ∈ ts, u ≤ (pairs.getLastD (0, 0)).2) →
      (pairs = [] → ts = []) →
      ∃ nf q, odeSteps (dZeroFam σfn n) pairs x ts
        = (dZeroFam σfn nf, q, some (ts.map fun u => x))
  | [], n, x, ts, hx, hp, hlast, hnil => by
    rw [hnil rfl]
    exact ⟨n, [], rfl⟩
  | (t0, t1) :: rest, n, x, ts, hx, hp, hlast, hnil => by
    obtain ⟨h00, h0T⟩ := hp (t0, t1) (List.mem_cons_self _ rest)
    rw [odeSteps, zero_dyn_forward σfn n t0 x hx h00 h0T]
    dsimp only
    rw [matScale_zero_rows, matAdd_zero2 x hx]
    dsimp only
    rcases rest with _ | ⟨r0, rest'⟩
    · have hall : ∀ u ∈ ts, u ≤ t1 := fun u hu => hlast (by simp) u hu
      rw [interpFill_all t0 t1 x x ts hall]
      dsimp only
      rw [odeSteps]
      refine ⟨n + 1, [t0], ?_⟩
      rw [List.map_congr_left fun u _ => linInterp_self t0 t1 u x]
      simp
    · obtain ⟨consumed, hsplit, hfilled, -⟩ :=
        interpFill_spec t0 t1 x x ts
      have hrest : ∀ u ∈ (interpFill t0 t1 x x ts).2,
          u ≤ ((r0 :: rest').getLastD (0, 0)).2 := by
        intro u hu
        have hmem : u ∈ ts := by
          rw [hsplit]
          exact List.mem_append_right _ hu
        exact hlast (by simp) u hmem
      obtain ⟨nf, q, hrec⟩ := zero_odeSteps σfn (r0 :: rest') (n + 1) x
        (interpFill t0 t1 x x ts).2 hx
        (fun p hp' => hp p (List.mem_cons_of_mem _ hp'))
        (fun hne => hrest) (by simp)
      rw [hrec]
      dsimp only
      refine ⟨nf, t0 :: q, ?_⟩
      have hfinal : (interpFill t0 t1 x x ts).1 ++
          ((interpFill t0 t1 x x ts).2.map fun u => x) =
            ts.map fun u => x := by
        rw [hfilled,
          show consumed.map (linInterp t0 t1 x x) = consumed.map fun u => x
            from List.map_congr_left fun u _ => linInterp_self t0 t1 u x]
        conv_rhs => rw [hsplit, List.map_append]
      simp only [Option.map_some', hfinal]

/-- Zero-bank dynamics: `odeint` returns the initial state at every
requested time. -/
lemma zero_odeintEuler (σfn : ℚ → ℚ) (n : ℕ) (x : Mat)
    (hx : ∀ r ∈ x, r.length = 2) (t0 : ℚ) (trest : List ℚ)
    (hp : ∀ p ∈ (gridConstructor dt (t0 :: trest)).zip
        (gridConstructor dt (t0 :: trest)).tail, 0 ≤ p.1 ∧ p.1 < T)
    (hlast : (gridConstructor dt (t0 :: trest)).zip
        (gridConstructor dt (t0 :: trest)).tail ≠ [] →
        ∀ u ∈ trest, u ≤ (((gridConstructor dt (t0 :: trest)).zip
          (gridConstructor dt (t0 :: trest)).tail).getLastD (0, 0)).2)
    (hnil : (gridConstructor dt (t0 :: trest)).zip
        (gridConstructor dt (t0 :: trest)).tail = [] → trest = []) :
    ∃ nf q, odeintEuler (dZeroFam σfn n) x (t0 :: trest) dt
      = (dZeroFam σfn nf, q, some (x :: trest.map fun u => x)) := by
  obtain ⟨nf, q, key⟩ := zero_odeSteps σfn _ n x trest hx hp hlast hnil
  refine ⟨nf, q, ?_⟩
  unfold odeintEuler
  dsimp only
  rw [key]
  rfl

/-- Zero-bank dynamics: `Semiflow.forward` with omitted `eval_times`
returns the input unchanged. -/
lemma zero_semiflow_forward (σfn : ℚ → ℚ) (n : ℕ) (tol : ℚ) (x : Mat)
    (hx : ∀ r ∈ x, r.length = 2) :
    ∃ nf, (Semiflow.mk false (dZeroFam σfn n) tol).forward x none =
      (Semiflow.mk false (dZeroFam σfn nf) tol, some (FlowOut.single x)) := by
  obtain ⟨nf, q, key⟩ := zero_odeintEuler σfn 0 x hx 0 [T]
    (by with_unfolding_all decide)
    (fun hne => by with_unfolding_all decide)
    (by with_unfolding_all decide)
  refine ⟨nf, ?_⟩
  unfold Semiflow.forward
  dsimp only
  rw [ite_self]
  have key' : odeintEuler { dZeroFam σfn n with nfe := 0 } x
      (integrationTime none) dt = (dZeroFam σfn nf, q, some [x, x]) := key
  rw [show augmentInput (dZeroFam σfn n) x = x from rfl, key']
  rfl

/-- Zero-bank dynamics: `Semiflow.trajectory` returns the input at all
`time_steps` requested times. -/
lemma zero_semiflow_traj (σfn : ℚ → ℚ) (n : ℕ) (tol : ℚ) (x : Mat)
    (hx : ∀ r ∈ x, r.length = 2) :
    ∃ nf, (Semiflow.mk false (dZeroFam σfn n) tol).trajectory x time_steps =
      (Semiflow.mk false (dZeroFam σfn nf) tol,
       some (FlowOut.states ((linspaceQ 0 T time_steps).map fun u => x))) := by
  have hlin : linspaceQ 0 T time_steps
      = 0 :: [5/7, 10/7, 15/7, 20/7, 25/7, 30/7, 5, 40/7, 45/7, 50/7,
              55/7, 60/7, 65/7, 10] := by
    with_unfolding_all decide
  obtain ⟨nf, q, key⟩ := zero_odeintEuler σfn 0 x hx 0
    [5/7, 10/7, 15/7, 20/7, 25/7, 30/7, 5, 40/7, 45/7, 50/7,
     55/7, 60/7, 65/7, 10]
    (by with_unfolding_all decide)
    (fun hne => by with_unfolding_all decide)
    (by with_unfolding_all decide)
  refine ⟨nf, ?_⟩
  unfold Semiflow.trajectory Semiflow.forward
  dsimp only
  rw [ite_self, hlin]
  have key' : odeintEuler { dZeroFam σfn n with nfe := 0 } x
      (integrationTime (some (0 :: [5/7, 10/7, 15/7, 20/7, 25/7, 30/7, 5,
        40/7, 45/7, 50/7, 55/7, 60/7, 65/7, 10]))) dt
      = (dZeroFam σfn nf, q,
         some (x :: [5/7, 10/7, 15/7, 20/7, 25/7, 30/7, 5, 40/7, 45/7,
           50/7, 55/7, 60/7, 65/7, (10 : ℚ)].map fun u => x)) := key
  rw [show augmentInput (dZeroFam σfn n) x = x from rfl, key']
  rfl

/-- `nn.Linear` with zero weight and zero bias broadcasts the zero bias
row over the batch. -/
lemma linApply_zero2 (x : Mat) (hx : ∀ r ∈ x, r.length = 2) :
    linApply ⟨[[0, 0], [0, 0]], [0, 0]⟩ x = some (x.map fun r => [0, 0]) := by
  unfold linApply
  rw [matmulT_zero22 x hx, Option.some_bind]
  refine addBias_zero2 _ fun r hr => ?_
  rcases List.mem_map.mp hr with ⟨r0, -, rfl⟩
  rfl

/-- Mapping a fallible operation that succeeds pointwise. -/
lemma mapO_congr_some {α β : Type} (f : α → Option β) (g : α → β) :
    ∀ l : List α, (∀ a ∈ l, f a = some (g a)) → mapO f l = some (l.map g)
  | [], _ => rfl
  | a :: l, h => by
    rw [mapO, h a (List.mem_cons_self a l),
      mapO_congr_some f g l fun b hb => h b (List.mem_cons_of_mem _ hb)]
    rfl

/-- Counterexample to C3: with `data_dim = 2, augment_dim = 0,
hidden_dim = 4` the flat-mode weight is `4 × 4` while the state has 2
columns, so `x.matmul(w_t.t())` raises a shape `RuntimeError` (`none`)
instead of producing the zero vector — already at `t = 0`,
`x = [[1, 1]]`.  (The failure is independent of the activation maps,
instantiated here with the identity.) -/
theorem zero_field_cex :
    ((Dynamics.init 2 4 0 (fun q => q) (fun q => q) "tanh"
        blkZero4 blkZero4 blkZero4).map
      fun d => (d.forward 0 [[1, 1]]).2) = some none := by
  with_unfolding_all decide

/-- C3 (amended): with `data_dim = 2, augment_dim = 0` and
`hidden_dim = 2` — flat mode needs `hidden_dim = data_dim + augment_dim`
for the shapes to conform — and a zero-initialised parameter bank, the
vector field evaluates to the zero batch for every `t ∈ [0, T)` and every
2-column input (leaving the state untouched), `Semiflow.forward` returns
the input unchanged, and the zero-initialised readout makes the
prediction the zero bias broadcast over the batch. -/
theorem zero_field_amended (tanhFn sigmoidFn : ℚ → ℚ) (d : Dynamics)
    (hinit : Dynamics.init 2 2 0 tanhFn sigmoidFn "tanh"
        blkZero2 blkZero2 blkZero2 = some d)
    (x : Mat) (hx : ∀ r ∈ x, r.length = 2) :
    (∀ t : ℚ, 0 ≤ t → t < T →
        (d.forward t x).2 = some (x.map fun r => [0, 0], x)) ∧
    ((Semiflow.mk false d (1 / 1000)).forward x none).2 =
        some (FlowOut.single x) ∧
    ((NeuralODE.mk 2 2 0 2 (1 / 1000) (Semiflow.mk false d (1 / 1000))
        (LinearLayer.mk [[0, 0], [0, 0]] [0, 0]) tanhFn none
        none).forward x false).2.map NODEOut.pred
      = some (x.map fun r => [0, 0]) := by
  have hd : d = dZeroFam tanhFn 0 := by
    have hval : Dynamics.init 2 2 0 tanhFn sigmoidFn "tanh"
        blkZero2 blkZero2 blkZero2 = some (dZeroFam tanhFn 0) := by
      with_unfolding_all rfl
    rw [hval] at hinit
    exact (Option.some.inj hinit).symm
  subst hd
  obtain ⟨nf, hfwd⟩ := zero_semiflow_forward tanhFn 0 (1 / 1000) x hx
  obtain ⟨nf2, htraj⟩ := zero_semiflow_traj tanhFn nf (1 / 1000) x hx
  have hpred := linApply_zero2 x hx
  have hproj : mapO (linApply ⟨[[0, 0], [0, 0]], [0, 0]⟩)
      ((linspaceQ 0 T time_steps).map fun u => x)
      = some (((linspaceQ 0 T time_steps).map fun u => x).map
          fun st => x.map fun r => [0, 0]) := by
    refine mapO_congr_some _ _ _ fun a ha => ?_
    rcases List.mem_map.mp ha with ⟨u, -, rfl⟩
    exact hpred
  refine ⟨?_, ?_, ?_⟩
  · intro t h0 hT
    rw [zero_dyn_forward tanhFn 0 t x hx h0 hT]
  · rw [hfwd]
  · rw [forwardFull_learnable _ x false _ _ x _ _ _ hfwd htraj hpred hproj]
    rfl

/-- Witness for C3 (amended) at `x = [[3, 5]]`, with the identity
standing in for the pointwise `tanh`. -/
theorem zero_field_amended_witness :
    ((dZeroFam (fun q => q) 0).forward 3 [[3, 5]]).2
        = some ([[0, 0]], [[3, 5]]) ∧
    ((Semiflow.mk false (dZeroFam (fun q => q) 0) (1 / 1000)).forward
        [[3, 5]] none).2 = some (FlowOut.single [[3, 5]]) ∧
    ((NeuralODE.mk 2 2 0 2 (1 / 1000)
        (Semiflow.mk false (dZeroFam (fun q => q) 0) (1 / 1000))
        (LinearLayer.mk [[0, 0], [0, 0]] [0, 0]) (fun q => q) none
        none).forward [[3, 5]] false).2.map NODEOut.pred
      = some [[0, 0]] := by
  obtain ⟨h1, h2, h3⟩ := zero_field_amended (fun q => q) (fun q => q)
    (dZeroFam (fun q => q) 0) (by with_unfolding_all rfl) [[3, 5]]
    (by decide)
  exact ⟨h1 3 (by norm_num) (by norm_num [T]), h2, h3⟩

/-- Every `Dynamics.forward` call increments `nfe` by exactly one. -/
lemma forward_nfe (d : Dynamics) (t : ℚ) (y : Mat) :
    (d.forward t y).1.nfe = d.nfe + 1 := by
  unfold Dynamics.forward
  dsimp only
  split
  · split
    · rfl
    · split <;> split <;> rfl
  · split
    · split
      · rfl
      · split <;> rfl
    · rfl

/-- The stepping loop's final `nfe` is the starting one plus the number
of queried times. -/
lemma odeSteps_nfe : ∀ (pairs : List (ℚ × ℚ)) (d : Dynamics) (y : Mat)
    (ts : List ℚ),
    (odeSteps d pairs y ts).1.nfe = d.nfe + (odeSteps d pairs y ts).2.1.length
  | [], d, y, ts => by rw [odeSteps]; simp
  | (t0, t1) :: rest, d, y, ts => by
    rw [odeSteps]
    rcases hd : d.forward t0 y with ⟨d1, r1⟩
    have hd1 : d1.nfe = d.nfe + 1 := by
      have := forward_nfe d t0 y
      rw [hd] at this
      exact this
    dsimp only
    rcases r1 with _ | ⟨f0, y0m⟩
    · simpa using hd1
    · dsimp only
      rcases hA : matAdd y0m (matScale (t1 - t0) f0) with _ | y1
      · simpa using hd1
      · dsimp only
        have ih := odeSteps_nfe rest d1 y1 (interpFill t0 t1 y0m y1 ts).2
        rcases hR : odeSteps d1 rest y1 (interpFill t0 t1 y0m y1 ts).2
          with ⟨d2, q2, res2⟩
        rw [hR] at ih
        dsimp only at ih ⊢
        rw [ih, hd1, List.length_cons]
        omega

/-- The queried times form a sublist of the grid's left endpoints. -/
lemma odeSteps_queried_sublist : ∀ (pairs : List (ℚ × ℚ)) (d : Dynamics)
    (y : Mat) (ts : List ℚ),
    (odeSteps d pairs y ts).2.1.Sublist (pairs.map Prod.fst)
  | [], d, y, ts => by rw [odeSteps]; simp
  | (t0, t1) :: rest, d, y, ts => by
    rw [odeSteps]
    rcases hd : d.forward t0 y with ⟨d1, r1⟩
    dsimp only
    rcases r1 with _ | ⟨f0, y0m⟩
    · simp
    · dsimp only
      rcases hA : matAdd y0m (matScale (t1 - t0) f0) with _ | y1
      · simp
      · dsimp only
        have ih := odeSteps_queried_sublist rest d1 y1
          (interpFill t0 t1 y0m y1 ts).2
        rcases hR : odeSteps d1 rest y1 (interpFill t0 t1 y0m y1 ts).2
          with ⟨d2, q2, res2⟩
        rw [hR] at ih
        dsimp only at ih ⊢
        rw [List.map_cons]
        exact ih.cons₂ t0

/-- Mapping `Prod.fst` over `l.zip l.tail` lists all but the last
element. -/
lemma map_fst_zip_tail : ∀ l : List ℚ,
    (l.zip l.tail).map Prod.fst = l.dropLast
  | [] => rfl
  | [a] => rfl
  | a :: b :: t => by
    have ih := map_fst_zip_tail (b :: t)
    simp only [List.tail_cons, List.zip_cons_cons, List.map_cons] at ih ⊢
    rw [ih]
    rfl

/-- The arithmetic grid, last point excluded, has no duplicate times. -/
lemma grid_dropLast_nodup (step : ℚ) (hstep : 0 < step) (t : List ℚ) :
    (gridConstructor step t).dropLast.Nodup := by
  have hinj : Function.Injective
      (fun i : ℕ => t.headD 0 + (i : ℚ) * step) := by
    intro a b hab
    simp only at hab
    have h1 : (a : ℚ) * step = (b : ℚ) * step := by linarith
    have h2 := mul_right_cancel₀ (ne_of_gt hstep) h1
    exact_mod_cast h2
  have hnodup := List.Nodup.map hinj
    (List.nodup_range
      ((⌈(t.getLastD 0 - t.headD 0) / step + 1⌉).toNat))
  unfold gridConstructor setLast
  dsimp only
  split
  · simp
  · rw [List.dropLast_concat]
    exact (List.dropLast_sublist _).nodup hnodup

/-- `odeintEuler`'s final `nfe` is the starting one plus the number of
queried times, and the queried times are pairwise distinct. -/
lemma odeintEuler_nfe_nodup (d : Dynamics) (y : Mat) (t : List ℚ) :
    (odeintEuler d y t dt).1.nfe
      = d.nfe + (odeintEuler d y t dt).2.1.length ∧
    (odeintEuler d y t dt).2.1.Nodup := by
  unfold odeintEuler
  rcases t with _ | ⟨t0, trest⟩
  · exact ⟨rfl, List.nodup_nil⟩
  · dsimp only
    rcases hS : odeSteps d ((gridConstructor dt (t0 :: trest)).zip
        (gridConstructor dt (t0 :: trest)).tail) y trest with ⟨dS, qS, resS⟩
    have h1 := odeSteps_nfe ((gridConstructor dt (t0 :: trest)).zip
        (gridConstructor dt (t0 :: trest)).tail) d y trest
    have h2 := odeSteps_queried_sublist ((gridConstructor dt (t0 :: trest)).zip
        (gridConstructor dt (t0 :: trest)).tail) d y trest
    rw [hS] at h1 h2
    dsimp only at h1 h2 ⊢
    refine ⟨h1, ?_⟩
    rw [map_fst_zip_tail] at h2
    exact h2.nodup (grid_dropLast_nodup dt dt_pos _)

/-- C7: `Semiflow.forward` resets `nfe` to zero at the start of the call,
every `Dynamics.forward` invocation increments it by exactly one, and
after the call `nfe` equals the number of queried time points — which are
pairwise distinct, so it is the number of distinct time points at which
the solver queried the vector field (independently of the `nfe` value the
dynamics held before the call). -/
theorem nfe_counts (s : Semiflow) (x : Mat) (eval_times : Option (List ℚ)) :
    (s.forward x eval_times).1.dynamics.nfe
        = (queriedTimes s x eval_times).length ∧
    (queriedTimes s x eval_times).Nodup ∧
    ∀ (d : Dynamics) (t : ℚ) (y : Mat), (d.forward t y).1.nfe = d.nfe + 1 := by
  obtain ⟨h1, h2⟩ := odeintEuler_nfe_nodup { s.dynamics with nfe := 0 }
    (augmentInput s.dynamics x) (integrationTime eval_times)
  refine ⟨?_, h2, fun d t y => forward_nfe d t y⟩
  unfold Semiflow.forward queriedTimes
  dsimp only
  rw [ite_self]
  rcases hE : odeintEuler { s.dynamics with nfe := 0 }
      (augmentInput s.dynamics x) (integrationTime eval_times) dt
    with ⟨d', q, out?⟩
  rw [hE] at h1
  dsimp only at h1 ⊢
  rcases out? with _ | out
  · simpa using h1
  · rcases eval_times with _ | ets <;> simpa using h1

/-- A successful stepping loop emits exactly one state per requested
time. -/
lemma odeSteps_length : ∀ (pairs : List (ℚ × ℚ)) (d : Dynamics) (y : Mat)
    (ts : List ℚ) (d' : Dynamics) (q : List ℚ) (sol : List Mat),
    odeSteps d pairs y ts = (d', q, some sol) → sol.length = ts.length
  | [], d, y, ts, d', q, sol, h => by
    rw [odeSteps] at h
    split at h
    case isTrue hts =>
      injection h with h1 h23
      injection h23 with h2 h3
      have h' : ([] : List Mat) = sol := Option.some.inj h3
      subst h'
      rw [List.isEmpty_iff] at hts
      rw [hts]
      rfl
    case isFalse =>
      injection h with h1 h23
      injection h23 with h2 h3
      exact Option.noConfusion h3
  | (t0, t1) :: rest, d, y, ts, d', q, sol, h => by
    rw [odeSteps] at h
    rcases hd : d.forward t0 y with ⟨d1, r1⟩
    rw [hd] at h
    dsimp only at h
    rcases r1 with _ | ⟨f0, y0m⟩
    · injection h with h1 h23
      injection h23 with h2 h3
      exact Option.noConfusion h3
    · dsimp only at h
      rcases hA : matAdd y0m (matScale (t1 - t0) f0) with _ | y1
      · rw [hA] at h
        dsimp only at h
        injection h with h1 h23
        injection h23 with h2 h3
        exact Option.noConfusion h3
      · rw [hA] at h
        dsimp only at h
        rcases hR : odeSteps d1 rest y1 (interpFill t0 t1 y0m y1 ts).2
          with ⟨d2, q2, res2⟩
        rw [hR] at h
        dsimp only at h
        rcases res2 with _ | sol2
        · injection h with h1 h23
          injection h23 with h2 h3
          exact Option.noConfusion h3
        · injection h with h1 h23
          injection h23 with h2 h3
          have h' : (interpFill t0 t1 y0m y1 ts).1 ++ sol2 = sol :=
            Option.some.inj h3
          subst h'
          obtain ⟨consumed, hsplit, hfilled, -⟩ :=
            interpFill_spec t0 t1 y0m y1 ts
          rw [List.length_append, hfilled, List.length_map,
            odeSteps_length rest d1 y1 _ d2 q2 sol2 hR]
          conv_rhs => rw [hsplit]
          rw [List.length_append]

/-- The last emitted state of a successful stepping loop is the terminal
Euler iterate, provided the last requested time is exactly the right
endpoint of the last grid interval and all earlier intervals end strictly
below it. -/
lemma odeSteps_getLast : ∀ (pairs : List (ℚ × ℚ)) (d : Dynamics) (y : Mat)
    (ts : List ℚ) (L : ℚ) (d' : Dynamics) (q : List ℚ) (sol : List Mat),
    odeSteps d pairs y ts = (d', q, some sol) →
    pairs ≠ [] →
    (pairs.getLastD (0, 0)).2 = L →
    (∀ p ∈ pairs, p.1 < p.2) →
    (∀ p ∈ pairs.dropLast, p.2 < L) →
    ts.getLast? = some L →
    sol.getLast? = eulerFinal d pairs y
  | [], d, y, ts, L, d', q, sol, h, hne, _, _, _, _ => absurd rfl hne
  | [(t0, t1)], d, y, ts, L, d', q, sol, h, hne, hlast2, hstrict, hbefore,
      hts => by
    have ht1L : t1 = L := hlast2
    subst ht1L
    have ht0 : t0 < t1 := hstrict (t0, t1) (List.mem_cons_self _ _)
    rw [odeSteps] at h
    rcases hd : d.forward t0 y with ⟨d1, r1⟩
    rw [hd] at h
    dsimp only at h
    rcases r1 with _ | ⟨f0, y0m⟩
    · injection h with h1 h23
      injection h23 with h2 h3
      exact Option.noConfusion h3
    · dsimp only at h
      rcases hA : matAdd y0m (matScale (t1 - t0) f0) with _ | y1
      · rw [hA] at h
        dsimp only at h
        injection h with h1 h23
        injection h23 with h2 h3
        exact Option.noConfusion h3
      · rw [hA] at h
        dsimp only at h
        rcases hI : interpFill t0 t1 y0m y1 ts with ⟨filled, rem⟩
        rw [hI] at h
        dsimp only at h
        rw [odeSteps] at h
        split at h
        case isFalse =>
          injection h with h1 h23
          injection h23 with h2 h3
          exact Option.noConfusion h3
        case isTrue hrem =>
          injection h with h1 h23
          injection h23 with h2 h3
          have h' : filled ++ [] = sol := Option.some.inj h3
          rw [List.append_nil] at h'
          subst h'
          rw [List.isEmpty_iff] at hrem
          obtain ⟨consumed, hsplit, hfilled, -⟩ :=
            interpFill_spec t0 t1 y0m y1 ts
          rw [hI] at hsplit hfilled
          dsimp only at hsplit hfilled
          subst hrem
          rw [List.append_nil] at hsplit
          subst hsplit
          rw [hfilled, List.getLast?_map, hts, Option.map_some']
          unfold eulerFinal
          rw [hd]
          dsimp only
          rw [hA]
          dsimp only
          rw [eulerFinal]
          unfold linInterp
          rw [if_neg (Ne.symm (ne_of_lt ht0)), if_pos rfl]
  | (t0, t1) :: r0 :: rest, d, y, ts, L, d', q, sol, h, hne, hlast2,
      hstrict, hbefore, hts => by
    have ht1L : t1 < L := by
      refine hbefore (t0, t1) ?_
      rw [List.dropLast_cons₂]
      exact List.mem_cons_self _ _
    rw [odeSteps] at h
    rcases hd : d.forward t0 y with ⟨d1, r1⟩
    rw [hd] at h
    dsimp only at h
    rcases r1 with _ | ⟨f0, y0m⟩
    · injection h with h1 h23
      injection h23 with h2 h3
      exact Option.noConfusion h3
    · dsimp only at h
      rcases hA : matAdd y0m (matScale (t1 - t0) f0) with _ | y1
      · rw [hA] at h
        dsimp only at h
        injection h with h1 h23
        injection h23 with h2 h3
        exact Option.noConfusion h3
      · rw [hA] at h
        dsimp only at h
        rcases hR : odeSteps d1 (r0 :: rest) y1 (interpFill t0 t1 y0m y1 ts).2
          with ⟨d2, q2, res2⟩
        rw [hR] at h
        dsimp only at h
        rcases res2 with _ | sol2
        · injection h with h1 h23
          injection h23 with h2 h3
          exact Option.noConfusion h3
        · injection h with h1 h23
          injection h23 with h2 h3
          have h' : (interpFill t0 t1 y0m y1 ts).1 ++ sol2 = sol :=
            Option.some.inj h3
          subst h'
          obtain ⟨consumed, hsplit, hfilled, hcons⟩ :=
            interpFill_spec t0 t1 y0m y1 ts
          have hremne : (interpFill t0 t1 y0m y1 ts).2 ≠ [] := by
            intro habs
            rw [habs, List.append_nil] at hsplit
            have hLts : L ∈ ts := by
              rcases ts with _ | ⟨u, us⟩
              · simp at hts
              · exact List.mem_of_mem_getLast? hts
            rw [hsplit] at hLts
            exact absurd (hcons L hLts) (not_le.mpr ht1L)
          have hremlast : (interpFill t0 t1 y0m y1 ts).2.getLast? = some L := by
            rw [hsplit] at hts
            rwa [List.getLast?_append_of_ne_nil _ hremne] at hts
          have hsol2ne : sol2 ≠ [] := by
            have := odeSteps_length (r0 :: rest) d1 y1 _ d2 q2 sol2 hR
            intro habs
            rw [habs] at this
            simp only [List.length_nil] at this
            exact hremne (List.eq_nil_of_length_eq_zero this.symm)
          have hrec := odeSteps_getLast (r0 :: rest) d1 y1
            (interpFill t0 t1 y0m y1 ts).2 L d2 q2 sol2 hR (by simp)
            hlast2 (fun p hp => hstrict p (List.mem_cons_of_mem _ hp))
            (fun p hp => by
              refine hbefore p ?_
              rw [List.dropLast_cons₂]
              exact List.mem_cons_of_mem _ hp)
            hremlast
          rw [List.getLast?_append_of_ne_nil _ hsol2ne, hrec]
          unfold eulerFinal
          rw [hd]
          dsimp only
          rw [hA]
          rfl

/-- The torchdiffeq grid depends on the requested times only through
their first and last entries. -/
lemma gridConstructor_congr (step : ℚ) (t1 t2 : List ℚ)
    (h1 : t1.headD 0 = t2.headD 0) (h2 : t1.getLastD 0 = t2.getLastD 0) :
    gridConstructor step t1 = gridConstructor step t2 := by
  unfold gridConstructor
  rw [h1, h2]

/-- `linspaceQ` over at least two points has the requested length. -/
lemma linspaceQ_length (n : ℕ) (hn : 2 ≤ n) : (linspaceQ 0 T n).length = n := by
  unfold linspaceQ
  rw [if_neg (by omega)]
  rw [List.length_map, List.length_range]

/-- First entry of a two-or-more point `linspaceQ 0 T`. -/
lemma linspaceQ_headD (n : ℕ) (hn : 2 ≤ n) : (linspaceQ 0 T n).headD 0 = 0 := by
  unfold linspaceQ
  rw [if_neg (by omega)]
  obtain ⟨m, rfl⟩ : ∃ m, n = m + 1 := ⟨n - 1, by omega⟩
  rw [List.range_succ_eq_map, List.map_cons]
  simp

/-- Last entry of a two-or-more point `linspaceQ 0 T`. -/
lemma linspaceQ_getLastD (n : ℕ) (hn : 2 ≤ n) :
    (linspaceQ 0 T n).getLastD 0 = T := by
  unfold linspaceQ
  rw [if_neg (by omega)]
  obtain ⟨m, rfl⟩ : ∃ m, n = m + 1 := ⟨n - 1, by omega⟩
  rw [List.range_succ, List.map_append, List.map_singleton,
    List.getLastD_concat]
  have hm : ((m : ℚ) + 1) - 1 = (m : ℚ) := by ring
  have hm0 : (m : ℚ) ≠ 0 := by
    have h1 : 0 < m := by omega
    have h2 : (0 : ℚ) < (m : ℚ) := by exact_mod_cast h1
    exact h2.ne'
  push_cast
  rw [hm]
  field_simp

/-- `linspaceQ 0 T` is sorted in time. -/
lemma linspaceQ_sorted (n : ℕ) (hn : 2 ≤ n) :
    (linspaceQ 0 T n).Sorted (· ≤ ·) := by
  unfold linspaceQ
  rw [if_neg (by omega)]
  refine List.Pairwise.map _ ?_ (List.pairwise_lt_range n)
  intro a b hab
  have hc : (0 : ℚ) < (n : ℚ) - 1 := by
    have h2 : (2 : ℚ) ≤ (n : ℚ) := by exact_mod_cast hn
    linarith
  have hab' : (a : ℚ) ≤ (b : ℚ) := by exact_mod_cast le_of_lt hab
  have hT : (0 : ℚ) ≤ T - 0 := by norm_num [T]
  have hmul : (T - 0) * (a : ℚ) ≤ (T - 0) * (b : ℚ) :=
    mul_le_mul_of_nonneg_left hab' hT
  have := (div_le_div_iff_of_pos_right hc).mpr hmul
  linarith

/-- Entries of `(List.range n).map f` through `getD`. -/
lemma getD_range_map (f : ℕ → ℚ) (n i : ℕ) (h : i < n) :
    ((List.range n).map f).getD i 0 = f i := by
  have hk : i < ((List.range n).map f).length := by
    rw [List.length_map, List.length_range]
    exact h
  rw [List.getD_eq_getElem _ _ hk]
  simp

/-- Consecutive `linspaceQ 0 T n` entries differ by `T / (n - 1)`. -/
lemma linspaceQ_spacing (n : ℕ) (hn : 2 ≤ n) (i : ℕ) (hi : i + 1 < n) :
    (linspaceQ 0 T n).getD (i + 1) 0 - (linspaceQ 0 T n).getD i 0
      = T / ((n : ℚ) - 1) := by
  unfold linspaceQ
  rw [if_neg (by omega)]
  rw [getD_range_map _ n (i + 1) hi, getD_range_map _ n i (by omega)]
  push_cast
  ring

/-- A list with the given `getLastD` value and a nonempty shape has that
value as its `getLast?`. -/
lemma getLast?_of_getLastD {l : List ℚ} (hne : l ≠ []) (v : ℚ)
    (h : l.getLastD 0 = v) : l.getLast? = some v := by
  rcases hl : l.getLast? with _ | w
  · exact absurd (List.getLast?_eq_none_iff.mp hl) hne
  · rw [List.getLastD_eq_getLast?, hl] at h
    simp only [Option.getD_some] at h
    rw [h]

/-- Shape of a successful `odeintEuler` run: the pinned initial state
followed by the loop's emissions. -/
lemma odeintEuler_some (d : Dynamics) (y : Mat) (t0 : ℚ) (trest : List ℚ)
    (d' : Dynamics) (q : List ℚ) (sol : List Mat)
    (h : odeintEuler d y (t0 :: trest) dt = (d', q, some sol)) :
    ∃ filled, sol = y :: filled ∧
      odeSteps d ((gridConstructor dt (t0 :: trest)).zip
          (gridConstructor dt (t0 :: trest)).tail) y trest
        = (d', q, some filled) := by
  unfold odeintEuler at h
  dsimp only at h
  rcases hS : odeSteps d ((gridConstructor dt (t0 :: trest)).zip
      (gridConstructor dt (t0 :: trest)).tail) y trest with ⟨dS, qS, resS⟩
  rw [hS] at h
  dsimp only at h
  rcases resS with _ | filled
  · injection h with h1 h23
    injection h23 with h2 h3
    exact Option.noConfusion h3
  · injection h with h1 h23
    injection h23 with h2 h3
    have h' : y :: filled = sol := Option.some.inj h3
    subst h1
    subst h2
    exact ⟨filled, h'.symm, rfl⟩

set_option maxRecDepth 10000 in
/-- Counterexample to C6 at `n = 1`: `torch.linspace(0, T, 1) = [0]`, so
`trajectory(x, 1)` returns the single initial state, which differs from
the terminal state of the no-`eval_times` integration whenever the field
moves the state — here the constant-drift dynamics `dDrift`. -/
theorem trajectory_n1_cex :
    (sDrift.trajectory [[0]] 1).2 = some (FlowOut.states [[[0]]]) ∧
    (sDrift.forward [[0]] none).2 = some (FlowOut.single [[10]]) ∧
    ¬ (([[(0 : ℚ)]] : Mat) = [[10]]) := by
  refine ⟨?_, ?_, ?_⟩
  · with_unfolding_all decide
  · with_unfolding_all decide
  · with_unfolding_all decide

/-- C6 (amended): for every `n ≥ 2` — `n = 1` yields the single-point
grid `[0]`, whose one returned state is the initial, not the terminal,
state — `Semiflow.trajectory (x, n)` builds a grid of exactly `n` equally
spaced, monotonically ordered times over `[0, T]`, and on success returns
exactly `n` states whose first is exactly the (possibly augmented) input
and whose last equals the terminal state of
`Semiflow.forward (x, eval_times = None)`. -/
theorem trajectory_spec (s : Semiflow) (x : Mat) (n : ℕ) (hn : 2 ≤ n) :
    (linspaceQ 0 T n).length = n ∧
    (linspaceQ 0 T n).Sorted (· ≤ ·) ∧
    (∀ i : ℕ, i + 1 < n →
        (linspaceQ 0 T n).getD (i + 1) 0 - (linspaceQ 0 T n).getD i 0
          = T / ((n : ℚ) - 1)) ∧
    ∀ sol, (s.trajectory x n).2 = some (FlowOut.states sol) →
      sol.length = n ∧
      sol.head? = some (augmentInput s.dynamics x) ∧
      ∀ m, (s.forward x none).2 = some (FlowOut.single m) →
        sol.getLast? = some m := by
  refine ⟨linspaceQ_length n hn, linspaceQ_sorted n hn,
    linspaceQ_spacing n hn, ?_⟩
  intro sol hsol
  have hlen := linspaceQ_length n hn
  have hhead := linspaceQ_headD n hn
  have hlastD := linspaceQ_getLastD n hn
  rcases hts : linspaceQ 0 T n with _ | ⟨t0, trest⟩
  · rw [hts] at hlen
    simp at hlen
    omega
  rw [hts] at hlen hhead hlastD
  have htrest_len : trest.length = n - 1 := by
    simp only [List.length_cons] at hlen
    omega
  have htrest_ne : trest ≠ [] := by
    intro h
    rw [h] at htrest_len
    simp at htrest_len
    omega
  unfold Semiflow.trajectory Semiflow.forward at hsol
  dsimp only at hsol
  rw [ite_self, hts] at hsol
  rcases hE : odeintEuler { s.dynamics with nfe := 0 }
      (augmentInput s.dynamics x) (integrationTime (some (t0 :: trest))) dt
    with ⟨d', q, out?⟩
  rw [hE] at hsol
  dsimp only at hsol
  rcases out? with _ | out
  · exact absurd hsol (by simp)
  dsimp only at hsol
  have hout_sol : out = sol := by
    have := Option.some.inj hsol
    cases this
    rfl
  subst hout_sol
  have hE' : odeintEuler { s.dynamics with nfe := 0 }
      (augmentInput s.dynamics x) (t0 :: trest) dt = (d', q, some out) := hE
  obtain ⟨filled, hshape, hS⟩ := odeintEuler_some _ _ _ _ _ _ _ hE'
  subst hshape
  have hfilled_len : filled.length = trest.length :=
    odeSteps_length _ _ _ _ _ _ _ hS
  have hgrid : gridConstructor dt (t0 :: trest) = gridConstructor dt [0, T] :=
    gridConstructor_congr dt _ _ (by rw [hhead]; rfl) (by rw [hlastD]; rfl)
  rw [hgrid] at hS
  refine ⟨?_, rfl, ?_⟩
  · simp only [List.length_cons, hfilled_len, htrest_len]
    omega
  intro m hm
  -- terminal equality via the shared Euler iterates
  have hPne : (gridConstructor dt [0, T]).zip
      (gridConstructor dt [0, T]).tail ≠ [] := by
    with_unfolding_all decide
  have hPlast : ((((gridConstructor dt [0, T]).zip
      (gridConstructor dt [0, T]).tail)).getLastD (0, 0)).2 = T := by
    with_unfolding_all decide
  have hPstrict : ∀ p ∈ (gridConstructor dt [0, T]).zip
      (gridConstructor dt [0, T]).tail, p.1 < p.2 := by
    with_unfolding_all decide
  have hPbefore : ∀ p ∈ ((gridConstructor dt [0, T]).zip
      (gridConstructor dt [0, T]).tail).dropLast, p.2 < T := by
    with_unfolding_all decide
  have htsLast : trest.getLast? = some T := by
    have h1 : (t0 :: trest).getLast? = some T :=
      getLast?_of_getLastD (by simp) T hlastD
    rcases trest with _ | ⟨u, us⟩
    · exact absurd rfl htrest_ne
    · rwa [List.getLast?_cons_cons] at h1
  have htrajLast : filled.getLast? =
      eulerFinal { s.dynamics with nfe := 0 } ((gridConstructor dt [0, T]).zip
        (gridConstructor dt [0, T]).tail) (augmentInput s.dynamics x) :=
    odeSteps_getLast _ _ _ _ T _ _ _ hS hPne hPlast hPstrict hPbefore htsLast
  -- analyze the terminal-state call
  unfold Semiflow.forward at hm
  dsimp only at hm
  rw [ite_self] at hm
  rcases hE2 : odeintEuler { s.dynamics with nfe := 0 }
      (augmentInput s.dynamics x) (integrationTime none) dt
    with ⟨d2, q2, out2?⟩
  rw [hE2] at hm
  dsimp only at hm
  rcases out2? with _ | out2
  · exact absurd hm (by simp)
  dsimp only at hm
  have hE2' : odeintEuler { s.dynamics with nfe := 0 }
      (augmentInput s.dynamics x) (0 :: [T]) dt = (d2, q2, some out2) := hE2
  obtain ⟨filled2, hshape2, hS2⟩ := odeintEuler_some _ _ _ _ _ _ _ hE2'
  subst hshape2
  have hfilled2_len : filled2.length = 1 := by
    have := odeSteps_length _ _ _ _ _ _ _ hS2
    simpa using this
  rcases filled2 with _ | ⟨v, vs⟩
  · simp at hfilled2_len
  have hvs : vs = [] := by
    simp only [List.length_cons] at hfilled2_len
    exact List.eq_nil_of_length_eq_zero (by omega)
  subst hvs
  have hm' : m = v := by
    rcases hg : (augmentInput s.dynamics x :: [v]).get? 1 with _ | w
    · simp at hg
    · rw [hg] at hm
      simp only [Option.map_some'] at hm
      have h1 := Option.some.inj hm
      injection h1 with hwm
      have h2 : w = v := by
        simp only [List.get?_cons_succ, List.get?_cons_zero] at hg
        exact (Option.some.inj hg).symm
      exact hwm.symm.trans h2
  have htermLast : ([v] : List Mat).getLast? =
      eulerFinal { s.dynamics with nfe := 0 } ((gridConstructor dt [0, T]).zip
        (gridConstructor dt [0, T]).tail) (augmentInput s.dynamics x) :=
    odeSteps_getLast _ _ _ _ T _ _ _ hS2 hPne hPlast hPstrict hPbefore rfl
  have hfne : filled ≠ [] := by
    intro h
    rw [h] at hfilled_len
    simp only [List.length_nil] at hfilled_len
    exact htrest_ne (List.eq_nil_of_length_eq_zero hfilled_len.symm)
  rcases filled with _ | ⟨f1, fs⟩
  · exact absurd rfl hfne
  rw [List.getLast?_cons_cons, htrajLast, ← htermLast, hm']
  rfl

set_option maxRecDepth 10000 in
/-- Witness for C6 (amended) on the drift semiflow at `n = 2`. -/
theorem trajectory_spec_witness :
    (linspaceQ 0 T 2).length = 2 ∧
    ([[[(0 : ℚ)]], [[10]]] : List Mat).length = 2 ∧
    ([[[(0 : ℚ)]], [[10]]] : List Mat).head? = some [[0]] ∧
    ([[[(0 : ℚ)]], [[10]]] : List Mat).getLast? = some [[10]] := by
  obtain ⟨h1, h2, h3, h4⟩ := trajectory_spec sDrift [[0]] 2 (by omega)
  obtain ⟨hl, hh, hlast⟩ := h4 [[[0]], [[10]]] (by with_unfolding_all decide)
  exact ⟨h1, hl, hh, hlast [[10]] (by with_unfolding_all decide)⟩

end NODE
